import Mathlib

/-!
# Verification of the QG Word-document assembly pipeline

Shallow embedding of the repository's document-assembly core:

* `src/archive/word_submission.py` — `_flatten_dict` / `_unflatten_dict`
* `src/services/word/images.py` — `replace_image_markers_xml` and helpers
* `src/services/word/sanitize.py` — `strip_markup`, `sanitize_except_exceptions`
* `src/services/word/quill_convert.py` — `delta_to_html` fallback,
  `_normalize_quill_html_lists`
* `src/services/word/html_shim.py` — `_sync_style_name_with_level`,
  `_ensure_list_styles`

Python dicts are modelled as association lists in insertion order (Python 3
dicts preserve insertion order; `dict` equality is order-insensitive, but all
mappings manipulated here keep insertion order through every operation, so
list equality is a faithful refinement).  Machine floats of the image-scaling
arithmetic are modelled as exact rationals.
-/

namespace QG

/-! ## Nested string-keyed mappings (Python dict trees)

`PyTree α` models a JSON-ish Python value: either a non-dict leaf (payload
`α`) or a dict with string keys.  The claims only need string leaves for the
context model and opaque leaves for the flatten/unflatten round trip, so the
payload is a type parameter. -/

inductive PyTree (α : Type) where
  | leaf (a : α)
  | node (es : List (String × PyTree α))

/-- Characters of a string split on `'.'` — `List Char` worker for
`"k".split('.')` (Python `str.split` with an explicit separator). -/
def splitOnDot : List Char → List (List Char)
  | [] => [[]]
  | c :: cs =>
    if c = '.' then [] :: splitOnDot cs
    else
      match splitOnDot cs with
      | h :: t => (c :: h) :: t
      | [] => [[c]]

/-- Model of Python `key.split('.')` (same as Lean `String.splitOn "."`:
an empty string yields `[""]`, separators are single dots). -/
def pySplitDots (s : String) : List String :=
  (splitOnDot s.data).map (fun l => String.mk l)

/-- `_flatten_dict`'s key joining: `f"{parent_key}{sep}{k}" if parent_key else k`
with `sep = '.'`. -/
def joinKey (pre k : String) : String :=
  if pre = "" then k else pre ++ "." ++ k

/-- `_flatten_dict(d, parent_key)` from `src/archive/word_submission.py`:
dict values recurse with the dotted prefix, everything else becomes a
`(dotted_key, value)` item.  The Python wraps the items in `dict(...)`; on the
well-formed inputs considered the dotted keys are pairwise distinct, so the
item list is the faithful result. -/
def flattenD {α : Type} (pre : String) : List (String × PyTree α) → List (String × α)
  | [] => []
  | (k, .leaf a) :: rest => (joinKey pre k, a) :: flattenD pre rest
  | (k, .node sub) :: rest => flattenD (joinKey pre k) sub ++ flattenD pre rest

/-- `_flatten_dict(d)` at the top level (empty parent key). -/
def flatten_dict {α : Type} (es : List (String × PyTree α)) : List (String × α) :=
  flattenD "" es

/-- Dict lookup (`part in d` / `d[part]`). -/
def getKey? {α : Type} : List (String × PyTree α) → String → Option (PyTree α)
  | [], _ => none
  | (k', v) :: rest, k => if k' = k then some v else getKey? rest k

/-- Dict assignment `d[k] = v`: updates an existing key in place (Python dicts
keep the original position) or appends a new one. -/
def setKey {α : Type} : List (String × PyTree α) → String → PyTree α → List (String × PyTree α)
  | [], k, v => [(k, v)]
  | (k', v') :: rest, k, v =>
    if k' = k then (k, v) :: rest else (k', v') :: setKey rest k v

/-- The sub-dict the `_unflatten_dict` loop descends into: the existing dict
under `p` if there is one, else a fresh empty dict (`if part not in d or not
isinstance(d[part], dict): d[part] = {}`). -/
def subOf {α : Type} (d : List (String × PyTree α)) (p : String) : List (String × PyTree α) :=
  match getKey? d p with
  | some (.node s) => s
  | _ => []

/-- One key of `_unflatten_dict`'s loop: walk `parts`, materialising
intermediate dicts, and assign the value at the last part. -/
def insertPath {α : Type} (d : List (String × PyTree α)) :
    List String → α → List (String × PyTree α)
  | [], _ => d
  | [p], a => setKey d p (.leaf a)
  | p :: q :: ps, a => setKey d p (.node (insertPath (subOf d p) (q :: ps) a))

/-- One iteration of the `for key, value in flat.items()` loop of
`_unflatten_dict`: Python splits the key on `'.'` and inserts. -/
def insStep {α : Type} (acc : List (String × PyTree α)) (e : String × α) :
    List (String × PyTree α) :=
  insertPath acc (pySplitDots e.1) e.2

/-- The entry loop of `_unflatten_dict` (before the final `"data"` check). -/
def unflattenD {α : Type} (flat : List (String × α)) : List (String × PyTree α) :=
  flat.foldl insStep []

/-- `_unflatten_dict(flat)` from `src/archive/word_submission.py`, including
the final special case: `if "data" in result and isinstance(result["data"],
dict): return {"data": result["data"]}`. -/
def unflatten_dict {α : Type} (flat : List (String × α)) : PyTree α :=
  let result := unflattenD flat
  match getKey? result "data" with
  | some (.node des) => .node [("data", PyTree.node des)]
  | _ => .node result

/-- Well-formedness of a repeatable-group nested mapping as hypothesised by
the round-trip claim: string keys are nonempty and contain no dot, keys are
distinct at each level, and every value is either a non-dict leaf or a
nonempty sub-mapping (an empty dict would itself be a dict leaf, which the
claim's "non-dict leaves" excludes). -/
def wfE {α : Type} : List (String × PyTree α) → Bool
  | [] => true
  | (k, v) :: rest =>
    decide (k ≠ "") && decide ('.' ∉ k.data) && decide (k ∉ rest.map Prod.fst) &&
      (match v with
       | .leaf _ => true
       | .node sub => !sub.isEmpty && wfE sub) &&
      wfE rest

/-- Condition under which `_unflatten_dict`'s final `"data"` special case is
harmless: the top level either has no `"data"` sub-dict, or consists of the
single key `"data"` (otherwise the special case drops every other top-level
entry). -/
def dataOk {α : Type} (es : List (String × PyTree α)) : Bool :=
  match getKey? es "data" with
  | some (.node _) => es.length = 1
  | _ => true

/-- Top-level keys of a tree, used to observe mappings apart. -/
def PyTree.topKeys {α : Type} : PyTree α → List String
  | .leaf _ => []
  | .node es => es.map Prod.fst

/-! ### Lemmas about dotted-key splitting -/

theorem splitOnDot_ne_nil (l : List Char) : splitOnDot l ≠ [] := by
  cases l with
  | nil => simp [splitOnDot]
  | cons c cs =>
    simp only [splitOnDot]
    split
    · simp
    · cases h : splitOnDot cs <;> simp

theorem splitOnDot_no_dot (l : List Char) (h : '.' ∉ l) : splitOnDot l = [l] := by
  induction l with
  | nil => rfl
  | cons c cs ih =>
    simp only [List.mem_cons, not_or] at h
    have hc : ¬ c = '.' := fun hh => h.1 hh.symm
    simp only [splitOnDot, if_neg hc, ih h.2]

theorem splitOnDot_append (k q : List Char) (h : '.' ∉ k) :
    splitOnDot (k ++ '.' :: q) = k :: splitOnDot q := by
  induction k with
  | nil => simp [splitOnDot]
  | cons c cs ih =>
    simp only [List.mem_cons, not_or] at h
    have hc : ¬ c = '.' := fun hh => h.1 hh.symm
    have hrec := ih h.2
    simp only [List.cons_append, splitOnDot, if_neg hc, List.append_eq, hrec]

theorem pySplitDots_no_dot (k : String) (h : '.' ∉ k.data) : pySplitDots k = [k] := by
  simp [pySplitDots, splitOnDot_no_dot k.data h]

theorem data_append₃ (k q : String) : (k ++ "." ++ q).data = k.data ++ '.' :: q.data := by
  simp [String.data_append]

theorem pySplitDots_append (k q : String) (h : '.' ∉ k.data) :
    pySplitDots (k ++ "." ++ q) = k :: pySplitDots q := by
  simp [pySplitDots, data_append₃, splitOnDot_append k.data q.data h]

theorem pySplitDots_ne_nil (s : String) : pySplitDots s ≠ [] := by
  simp [pySplitDots]
  exact splitOnDot_ne_nil _

/-! ### Lemmas about the well-formedness predicate -/

theorem wfE_cons {α : Type} {k : String} {v : PyTree α} {rest : List (String × PyTree α)}
    (h : wfE ((k, v) :: rest) = true) :
    k ≠ "" ∧ '.' ∉ k.data ∧ k ∉ rest.map Prod.fst ∧ wfE rest = true := by
  cases v with
  | leaf a =>
    simp only [wfE, Bool.and_eq_true, decide_eq_true_eq] at h
    obtain ⟨⟨⟨⟨h1, h2⟩, h3⟩, _⟩, h4⟩ := h
    exact ⟨h1, h2, h3, h4⟩
  | node sub =>
    simp only [wfE, Bool.and_eq_true, decide_eq_true_eq] at h
    obtain ⟨⟨⟨⟨h1, h2⟩, h3⟩, _⟩, h4⟩ := h
    exact ⟨h1, h2, h3, h4⟩

theorem wfE_cons_node {α : Type} {k : String} {sub rest : List (String × PyTree α)}
    (h : wfE ((k, PyTree.node sub) :: rest) = true) :
    sub ≠ [] ∧ wfE sub = true := by
  simp only [wfE, Bool.and_eq_true, decide_eq_true_eq, Bool.not_eq_true'] at h
  obtain ⟨⟨_, hE, hW⟩, _⟩ := h
  refine ⟨?_, hW⟩
  cases sub with
  | nil => simp [List.isEmpty] at hE
  | cons e es => simp

theorem joinKey_of_ne {pre : String} (h : pre ≠ "") (k : String) :
    joinKey pre k = pre ++ "." ++ k := by
  simp [joinKey, h]

theorem joinKey_empty (k : String) : joinKey "" k = k := rfl

/-! ### Association-list lemmas for `_unflatten_dict` -/

theorem getKey?_eq_none {α : Type} (d : List (String × PyTree α)) (k : String)
    (h : k ∉ d.map Prod.fst) : getKey? d k = none := by
  induction d with
  | nil => rfl
  | cons e rest ih =>
    obtain ⟨k', v⟩ := e
    simp only [List.map_cons, List.mem_cons, not_or] at h
    have hk' : ¬ k' = k := fun hh => h.1 hh.symm
    simp only [getKey?, if_neg hk']
    exact ih h.2

theorem getKey?_append_of_none {α : Type} {A : List (String × PyTree α)} {k : String}
    (d : List (String × PyTree α)) (h : getKey? A k = none) :
    getKey? (A ++ d) k = getKey? d k := by
  induction A with
  | nil => rfl
  | cons e rest ih =>
    obtain ⟨k', v⟩ := e
    simp only [getKey?] at h
    by_cases hk : k' = k
    · simp [hk] at h
    · simp only [List.cons_append, getKey?, if_neg hk]
      exact ih (by simpa [if_neg hk] using h)

theorem getKey?_append_found {α : Type} {A : List (String × PyTree α)} {k : String}
    (x : PyTree α) (B : List (String × PyTree α)) (h : getKey? A k = none) :
    getKey? (A ++ (k, x) :: B) k = some x := by
  rw [getKey?_append_of_none _ h]
  simp [getKey?]

theorem setKey_append_of_none {α : Type} {A : List (String × PyTree α)} {k : String}
    (d : List (String × PyTree α)) (v : PyTree α) (h : getKey? A k = none) :
    setKey (A ++ d) k v = A ++ setKey d k v := by
  induction A with
  | nil => rfl
  | cons e rest ih =>
    obtain ⟨k', v'⟩ := e
    simp only [getKey?] at h
    by_cases hk : k' = k
    · simp [hk] at h
    · simp only [List.cons_append, setKey, if_neg hk, List.append_eq]
      rw [ih (by simpa [if_neg hk] using h)]

theorem setKey_append_found {α : Type} {A : List (String × PyTree α)} {k : String}
    (x y : PyTree α) (B : List (String × PyTree α)) (h : getKey? A k = none) :
    setKey (A ++ (k, x) :: B) k y = A ++ (k, y) :: B := by
  rw [setKey_append_of_none _ _ h]
  simp [setKey]

theorem insertPath_cons₂ {α : Type} (d : List (String × PyTree α)) (p q : String)
    (ps : List String) (a : α) :
    insertPath d (p :: q :: ps) a = setKey d p (.node (insertPath (subOf d p) (q :: ps) a)) :=
  rfl

/-- Inserting below a key that does not occur in the prefix `A` leaves `A`
untouched. -/
theorem insStep_append {α : Type} (A d : List (String × PyTree α)) (e : String × α)
    (h : ∀ k tl, pySplitDots e.1 = k :: tl → getKey? A k = none) :
    insStep (A ++ d) e = A ++ insStep d e := by
  unfold insStep
  cases hsp : pySplitDots e.1 with
  | nil => exact absurd hsp (pySplitDots_ne_nil _)
  | cons k tl =>
    have hA := h k tl hsp
    cases tl with
    | nil =>
      simp only [insertPath]
      exact setKey_append_of_none _ _ hA
    | cons q ps =>
      simp only [insertPath_cons₂]
      have hsub : subOf (A ++ d) k = subOf d k := by
        unfold subOf
        rw [getKey?_append_of_none _ hA]
      rw [hsub, setKey_append_of_none _ _ hA]

/-- Folding insertions whose path heads avoid the keys of `A` acts only on the
suffix. -/
theorem foldl_insStep_append {α : Type} (flat : List (String × α)) :
    ∀ (A d : List (String × PyTree α)),
      (∀ e ∈ flat, ∀ k tl, pySplitDots e.1 = k :: tl → getKey? A k = none) →
      List.foldl insStep (A ++ d) flat = A ++ List.foldl insStep d flat := by
  induction flat with
  | nil => intro A d _; rfl
  | cons e rest ih =>
    intro A d h
    simp only [List.foldl_cons]
    rw [insStep_append A d e (h e (List.mem_cons_self e rest)),
      ih A _ (fun f hf => h f (List.mem_cons_of_mem e hf))]

/-- Folding insertions of keys `k ++ "." ++ q` updates exactly the dict stored
under `k`, in place. -/
theorem foldl_insStep_group {α : Type} (F : List (String × α)) :
    ∀ (A B : List (String × PyTree α)) (k : String) (s : List (String × PyTree α)),
      '.' ∉ k.data → getKey? A k = none →
      List.foldl insStep (A ++ (k, PyTree.node s) :: B)
          (F.map (fun e => (k ++ "." ++ e.1, e.2))) =
        A ++ (k, PyTree.node (List.foldl insStep s F)) :: B := by
  induction F with
  | nil => intro A B k s _ _; rfl
  | cons e rest ih =>
    intro A B k s hk hA
    obtain ⟨q, v⟩ := e
    simp only [List.map_cons, List.foldl_cons]
    have hstep :
        insStep (A ++ (k, PyTree.node s) :: B) (k ++ "." ++ q, v) =
          A ++ (k, PyTree.node (insStep s (q, v))) :: B := by
      unfold insStep
      simp only
      rw [pySplitDots_append k q hk]
      cases hsq : pySplitDots q with
      | nil => exact absurd hsq (pySplitDots_ne_nil _)
      | cons q₁ ps =>
        simp only [insertPath_cons₂]
        have hsub : subOf (A ++ (k, PyTree.node s) :: B) k = s := by
          unfold subOf
          rw [getKey?_append_found _ _ hA]
        rw [hsub, setKey_append_found _ _ _ hA, ← hsq]
    rw [hstep, ih A B k _ hk hA]

/-! ### Structure of `_flatten_dict`'s output -/

theorem strAppend_assoc (a b c : String) : a ++ b ++ c = a ++ (b ++ c) := by
  apply String.ext
  simp [String.data_append]

theorem append_dot_ne_empty (pre k : String) : pre ++ "." ++ k ≠ "" := by
  intro h
  have hd := congrArg String.data h
  simp [data_append₃] at hd

/-- Flattening under a nonempty prefix is flattening under the empty prefix
with the prefix joined onto every dotted key. -/
theorem flattenD_pre {α : Type} :
    ∀ (es : List (String × PyTree α)), wfE es = true → ∀ pre : String, pre ≠ "" →
      flattenD pre es = (flattenD "" es).map (fun e => (pre ++ "." ++ e.1, e.2))
  | [], _, _, _ => by simp [flattenD]
  | (k, .leaf a) :: rest, hwf, pre, hpre => by
    obtain ⟨_, _, _, hrest⟩ := wfE_cons hwf
    simp only [flattenD, List.map_cons, joinKey_of_ne hpre, joinKey_empty]
    rw [flattenD_pre rest hrest pre hpre]
  | (k, .node sub) :: rest, hwf, pre, hpre => by
    obtain ⟨hk, _, _, hrest⟩ := wfE_cons hwf
    obtain ⟨_, hsub⟩ := wfE_cons_node hwf
    simp only [flattenD, joinKey_of_ne hpre, joinKey_empty, List.map_append]
    rw [flattenD_pre sub hsub (pre ++ "." ++ k) (append_dot_ne_empty pre k),
      flattenD_pre sub hsub k hk, flattenD_pre rest hrest pre hpre, List.map_map]
    congr 1
    apply List.map_congr_left
    intro e _
    simp only [Function.comp_apply, Prod.mk.injEq]
    refine ⟨?_, trivial⟩
    apply String.ext
    simp [String.data_append]

theorem flattenD_ne_nil {α : Type} :
    ∀ (es : List (String × PyTree α)), wfE es = true → es ≠ [] →
      ∀ pre : String, flattenD pre es ≠ []
  | [], _, hne, _ => absurd rfl hne
  | (_, .leaf _) :: _, _, _, _ => by simp [flattenD]
  | (k, .node sub) :: rest, hwf, _, pre => by
    obtain ⟨hsubne, hsub⟩ := wfE_cons_node hwf
    simp only [flattenD]
    intro happ
    exact flattenD_ne_nil sub hsub hsubne _ (List.append_eq_nil.mp happ).1

/-- Every dotted key of `_flatten_dict`'s output starts with a top-level key
of the input mapping. -/
theorem flatten_head {α : Type} :
    ∀ (es : List (String × PyTree α)), wfE es = true →
      ∀ e ∈ flatten_dict es, ∃ k tl, pySplitDots e.1 = k :: tl ∧ k ∈ es.map Prod.fst
  | [], _, e, he => absurd he (by simp [flatten_dict, flattenD])
  | (k, .leaf a) :: rest, hwf, e, he => by
    obtain ⟨_, hkdot, _, hrest⟩ := wfE_cons hwf
    simp only [flatten_dict, flattenD, joinKey_empty, List.mem_cons] at he
    rcases he with rfl | he
    · exact ⟨k, [], pySplitDots_no_dot k hkdot, by simp⟩
    · obtain ⟨k', tl, hsp, hmem⟩ := flatten_head rest hrest e he
      exact ⟨k', tl, hsp, by simp [hmem]⟩
  | (k, .node sub) :: rest, hwf, e, he => by
    obtain ⟨hk, hkdot, _, hrest⟩ := wfE_cons hwf
    obtain ⟨_, hsub⟩ := wfE_cons_node hwf
    simp only [flatten_dict, flattenD, joinKey_empty, List.mem_append] at he
    rcases he with he | he
    · rw [flattenD_pre sub hsub k hk, List.mem_map] at he
      obtain ⟨f, _, rfl⟩ := he
      exact ⟨k, pySplitDots f.1, pySplitDots_append k f.1 hkdot, by simp⟩
    · obtain ⟨k', tl, hsp, hmem⟩ := flatten_head rest hrest e he
      exact ⟨k', tl, hsp, by simp [hmem]⟩

/-! ### The round trip -/

/-- Core round trip: the entry loop of `_unflatten_dict` recovers a
well-formed mapping from its `_flatten_dict` image. -/
theorem unflattenD_flatten {α : Type} :
    ∀ (es : List (String × PyTree α)), wfE es = true →
      unflattenD (flatten_dict es) = es
  | [], _ => by simp [unflattenD, flatten_dict, flattenD]
  | (k, .leaf a) :: rest, hwf => by
    obtain ⟨_, hkdot, hknotin, hrest⟩ := wfE_cons hwf
    have hflat : flatten_dict ((k, PyTree.leaf a) :: rest) = (k, a) :: flatten_dict rest := by
      simp [flatten_dict, flattenD, joinKey_empty]
    have hfirst : insStep [] (k, a) = [(k, PyTree.leaf a)] := by
      unfold insStep
      simp only
      rw [pySplitDots_no_dot k hkdot]
      rfl
    have hheads : ∀ e ∈ flatten_dict rest, ∀ k' tl, pySplitDots e.1 = k' :: tl →
        getKey? [(k, PyTree.leaf a)] k' = none := by
      intro e he k' tl hsp
      obtain ⟨k'', tl', hsp', hmem⟩ := flatten_head rest hrest e he
      rw [hsp] at hsp'
      obtain ⟨rfl, _⟩ : k' = k'' ∧ tl = tl' := by
        constructor <;> injection hsp' with h1 h2
      apply getKey?_eq_none
      simp only [List.map_cons, List.map_nil, List.mem_singleton]
      intro hkk
      exact hknotin (hkk ▸ hmem)
    rw [unflattenD, hflat, List.foldl_cons, hfirst,
      show [(k, PyTree.leaf a)] = [(k, PyTree.leaf a)] ++ ([] : List (String × PyTree α)) by simp,
      foldl_insStep_append _ _ _ hheads]
    rw [show List.foldl insStep [] (flatten_dict rest) = unflattenD (flatten_dict rest) from rfl,
      unflattenD_flatten rest hrest]
    rfl
  | (k, .node sub) :: rest, hwf => by
    obtain ⟨hk, hkdot, hknotin, hrest⟩ := wfE_cons hwf
    obtain ⟨hsubne, hsub⟩ := wfE_cons_node hwf
    have hflat : flatten_dict ((k, PyTree.node sub) :: rest) =
        (flatten_dict sub).map (fun e => (k ++ "." ++ e.1, e.2)) ++ flatten_dict rest := by
      simp only [flatten_dict, flattenD, joinKey_empty]
      rw [flattenD_pre sub hsub k hk]
    have hinner :
        List.foldl insStep [] ((flatten_dict sub).map (fun e => (k ++ "." ++ e.1, e.2))) =
          [(k, PyTree.node sub)] := by
      cases hF : flatten_dict sub with
      | nil => exact absurd hF (flattenD_ne_nil sub hsub hsubne "")
      | cons f₀ F =>
        have hfirst : insStep [] (k ++ "." ++ f₀.1, f₀.2) =
            [(k, PyTree.node (insStep [] f₀))] := by
          unfold insStep
          simp only
          rw [pySplitDots_append k f₀.1 hkdot]
          cases hsq : pySplitDots f₀.1 with
          | nil => exact absurd hsq (pySplitDots_ne_nil _)
          | cons q ps => rfl
        rw [List.map_cons, List.foldl_cons, hfirst,
          show [(k, PyTree.node (insStep [] f₀))] =
            [] ++ (k, PyTree.node (insStep [] f₀)) :: [] by simp,
          foldl_insStep_group F [] [] k (insStep [] f₀) hkdot rfl]
        have : List.foldl insStep (insStep [] f₀) F =
            unflattenD (flatten_dict sub) := by
          rw [unflattenD, hF, List.foldl_cons]
        rw [this, unflattenD_flatten sub hsub]
        rfl
    have hheads : ∀ e ∈ flatten_dict rest, ∀ k' tl, pySplitDots e.1 = k' :: tl →
        getKey? [(k, PyTree.node sub)] k' = none := by
      intro e he k' tl hsp
      obtain ⟨k'', tl', hsp', hmem⟩ := flatten_head rest hrest e he
      rw [hsp] at hsp'
      obtain ⟨rfl, _⟩ : k' = k'' ∧ tl = tl' := by
        constructor <;> injection hsp' with h1 h2
      apply getKey?_eq_none
      simp only [List.map_cons, List.map_nil, List.mem_singleton]
      intro hkk
      exact hknotin (hkk ▸ hmem)
    rw [unflattenD, hflat, List.foldl_append]
    rw [show List.foldl insStep [] ((flatten_dict sub).map (fun e => (k ++ "." ++ e.1, e.2))) =
      [(k, PyTree.node sub)] from hinner]
    rw [show [(k, PyTree.node sub)] = [(k, PyTree.node sub)] ++ ([] : List (String × PyTree α))
      by simp, foldl_insStep_append _ _ _ hheads]
    rw [show List.foldl insStep [] (flatten_dict rest) = unflattenD (flatten_dict rest) from rfl,
      unflattenD_flatten rest hrest]
    rfl

theorem getKey?_length_one {α : Type} {es : List (String × PyTree α)} {v : PyTree α}
    (hget : getKey? es "data" = some v) (hlen : es.length = 1) : es = [("data", v)] := by
  match es, hlen with
  | [(k, w)], _ =>
    simp only [getKey?] at hget
    by_cases hk : k = "data"
    · rw [if_pos hk] at hget
      cases hget
      rw [hk]
    · rw [if_neg hk] at hget
      cases hget

/-- Concrete mapping exhibiting the `"data"` special case of
`_unflatten_dict`: a top level mixing `"data"` with another key. -/
def mC9 : List (String × PyTree String) :=
  [("data", PyTree.node [("a", PyTree.leaf "1")]), ("b", PyTree.leaf "2")]

/-- C9 counterexample: for the mapping `{"data": {"a": "1"}, "b": "2"}` (string
keys without dots, non-dict leaves), `_unflatten_dict(_flatten_dict(m))`
is `{"data": {"a": "1"}}`, not `m` — the final `"data"` special case of
`_unflatten_dict` drops the other top-level key `"b"`.  The claim's universal
round-trip statement is therefore false. -/
theorem c9_roundtrip_counterexample :
    ¬ (unflatten_dict (flatten_dict mC9) = PyTree.node mC9) := by
  have hwf : wfE mC9 = true := by simp [wfE, mC9]
  have hround : unflatten_dict (flatten_dict mC9) =
      PyTree.node [("data", PyTree.node [("a", PyTree.leaf "1")])] := by
    unfold unflatten_dict
    rw [unflattenD_flatten mC9 hwf]
    rfl
  rw [hround]
  intro h
  have hkeys := congrArg PyTree.topKeys h
  simp [PyTree.topKeys, mC9] at hkeys

/-- C9 (amended): `_unflatten_dict(_flatten_dict(m)) == m` holds for every
nested mapping with nonempty dot-free string keys, distinct keys per level and
non-dict leaves, provided the top level does not combine a `"data"` sub-dict
with other keys (in that case `_unflatten_dict`'s final special case keeps only
the `"data"` entry, as the counterexample shows). -/
theorem c9_roundtrip_amended {α : Type} (es : List (String × PyTree α))
    (hwf : wfE es = true) (hdata : dataOk es = true) :
    unflatten_dict (flatten_dict es) = PyTree.node es := by
  unfold unflatten_dict
  rw [unflattenD_flatten es hwf]
  cases hd : getKey? es "data" with
  | none => simp [hd]
  | some v =>
    cases v with
    | leaf a => simp [hd]
    | node des =>
      simp only [hd]
      unfold dataOk at hdata
      rw [hd] at hdata
      simp only [decide_eq_true_eq] at hdata
      rw [getKey?_length_one hd hdata]

/-- Witness for C9 (amended) at the mapping `{"data": {"a": "1"}}`. -/
theorem c9_roundtrip_amended_witness :
    wfE [("data", PyTree.node [("a", PyTree.leaf "1")])] = true ∧
      dataOk [("data", PyTree.node [("a", PyTree.leaf "1")])] = true ∧
      unflatten_dict (flatten_dict [("data", PyTree.node [("a", PyTree.leaf "1")])]) =
        PyTree.node [("data", PyTree.node [("a", PyTree.leaf "1")])] :=
  ⟨by simp [wfE], by rfl,
    c9_roundtrip_amended [("data", PyTree.node [("a", PyTree.leaf "1")])]
      (by simp [wfE]) (by rfl)⟩

/-! ## Sanitizer (`src/services/word/sanitize.py`)

`strip_markup` is `BeautifulSoup(text, "html.parser").get_text()`: the text
nodes of the parsed fragment concatenated with no separator.  The scanner
below models the library for the plain-tag fragments the claims quantify
over: a `<` that opens a tag token (next char a letter, `/`, `!` or `?`, per
`html.parser`) is skipped through the closing `>` and contributes nothing;
any other `<` is character data; the common named character references are
decoded; everything else is kept verbatim.  (Comment/script/CDATA payloads
and exotic charrefs are outside the inputs considered.)  Note `get_text`
inserts nothing for `<br>` or closing tags — they are simply dropped. -/

/-- Does the suffix begin a markup token after `<` (html.parser starts a tag,
end tag, declaration or processing instruction)? -/
def tagOpens : List Char → Bool
  | [] => false
  | c :: _ => c.isAlpha || c = '/' || c = '!' || c = '?'

/-- Text extraction automaton: `inTag = true` while skipping a markup token
(until the next `>`), `false` in character data.  An ampersand starting one of
the common named character references is decoded; any other ampersand is
character data. -/
def stripGo : Bool → List Char → List Char
  | _, [] => []
  | true, c :: rest => if c = '>' then stripGo false rest else stripGo true rest
  | false, '&' :: 'a' :: 'm' :: 'p' :: ';' :: rest => '&' :: stripGo false rest
  | false, '&' :: 'l' :: 't' :: ';' :: rest => '<' :: stripGo false rest
  | false, '&' :: 'g' :: 't' :: ';' :: rest => '>' :: stripGo false rest
  | false, '<' :: rest =>
    if tagOpens rest then stripGo true rest else '<' :: stripGo false rest
  | false, c :: rest => c :: stripGo false rest

/-- `strip_markup(text)` from `src/services/word/sanitize.py`. -/
def strip_markup (s : String) : String :=
  String.mk (stripGo false s.data)

/-- Model of Python `str.lower()`, character by character.  (The dotted paths
compared against the allow-list are ASCII, where this agrees with Python; the
core `String.toLower` is positional and kernel-opaque, hence this list-level
equivalent.) -/
def pyLower (s : String) : String :=
  String.mk (s.data.map Char.toLower)

/-- `EXCEPTION_HTML_FIELDS` from `src/services/word/constants.py` (the
allow-list of dotted paths that keep their rich markup). -/
def EXCEPTION_HTML_FIELDS : List String :=
  ["data.zonefunctions.guardingdescription",
   "data.riskdescription.1",
   "data.zonefunctions.controlsdescription"]

mutual

/-- `sanitize_except_exceptions(obj, parent_path)`: strings are stripped,
dicts recurse, and a child entry whose lowercased dotted path is in the
allow-list is kept untouched.  (The Python list branch is not needed by the
claims; dict keys keep their casing.) -/
def sanitize_except_exceptions (obj : PyTree String) (parentPath : List String) :
    PyTree String :=
  match obj with
  | .leaf s => .leaf (strip_markup s)
  | .node es => .node (sanitizeEntries es parentPath)

/-- The dict branch of `sanitize_except_exceptions`: per-entry allow-list
check on the dotted path before recursing. -/
def sanitizeEntries (es : List (String × PyTree String)) (parentPath : List String) :
    List (String × PyTree String) :=
  match es with
  | [] => []
  | (k, v) :: rest =>
    (k,
      if pyLower (String.intercalate "." (parentPath ++ [k])) ∈ EXCEPTION_HTML_FIELDS then v
      else sanitize_except_exceptions v (parentPath ++ [k])) :: sanitizeEntries rest parentPath

end

/-- Leaf observation: the string stored at a dotted path (as a segment list). -/
def leafAt {α : Type} : PyTree α → List String → Option α
  | .leaf a, [] => some a
  | .node _, [] => none
  | .leaf _, _ :: _ => none
  | .node es, k :: ps =>
    match getKey? es k with
    | some v => leafAt v ps
    | none => none

/-- Character data with no `<` and no `&` passes through text extraction
unchanged. -/
theorem stripGo_id : ∀ (l : List Char), '<' ∉ l → '&' ∉ l → stripGo false l = l
  | [], _, _ => rfl
  | c :: rest, h1, h2 => by
    simp only [List.mem_cons, not_or] at h1 h2
    have ih := stripGo_id rest h1.2 h2.2
    rw [stripGo.eq_def]
    split <;> simp_all

theorem strip_markup_id (s : String) (h1 : '<' ∉ s.data) (h2 : '&' ∉ s.data) :
    strip_markup s = s := by
  unfold strip_markup
  rw [stripGo_id s.data h1 h2]

/-! ## Delta → HTML fallback (`src/services/word/quill_convert.py`)

`delta_to_html` on a string first runs `json.loads`; the decode result is
supplied here as an oracle argument (`none` models a raised
`json.JSONDecodeError`, in which case the source returns
`f"<p>{strip_markup(delta)}</p>"`).  On success the ops list is walked,
splitting string inserts on newlines into `<p>` paragraphs; attributes are
ignored and non-string inserts are skipped (`# embeds ignored here`). -/

/-- `_esc` from `src/services/word/quill_convert.py`:
`replace("&","&amp;").replace("<","&lt;").replace(">","&gt;")`, fused into a
single character pass (the later replaces never touch the entities the first
one introduces). -/
def escChars : List Char → List Char
  | [] => []
  | '&' :: rest => '&' :: 'a' :: 'm' :: 'p' :: ';' :: escChars rest
  | '<' :: rest => '&' :: 'l' :: 't' :: ';' :: escChars rest
  | '>' :: rest => '&' :: 'g' :: 't' :: ';' :: escChars rest
  | c :: rest => c :: escChars rest

def esc (s : String) : String :=
  String.mk (escChars s.data)

/-- Characters split on `'\n'` — model of Python `str.split("\n")`. -/
def splitOnNl : List Char → List (List Char)
  | [] => [[]]
  | c :: cs =>
    if c = '\n' then [] :: splitOnNl cs
    else
      match splitOnNl cs with
      | h :: t => (c :: h) :: t
      | [] => [[c]]

def pySplitLines (s : String) : List String :=
  (splitOnNl s.data).map (fun l => String.mk l)

/-- The payload of one Delta op's `insert`: a string or an embed dict. -/
inductive QCIns where
  | str (s : String)
  | embed

/-- The inner `for i, part in enumerate(parts)` loop of `delta_to_html`:
every part but the last is flushed (appended to `buf` then emitted as an
escaped `<p>` paragraph), the last is buffered.  Returns the emitted
paragraphs and the new buffer. -/
def qcParts : List String → List String → (List String × List String)
  | [], buf => ([], buf)
  | [p], buf => ([], buf ++ [p])
  | p :: q :: rest, buf =>
    let para := "<p>" ++ esc (String.join (buf ++ [p])) ++ "</p>"
    let pb := qcParts (q :: rest) []
    (para :: pb.1, pb.2)

/-- The `for op in ops` loop of `delta_to_html`, plus the trailing
`if buf: paras.append(...)` flush. -/
def qcOps : List QCIns → List String → List String
  | [], buf =>
    if buf.isEmpty then [] else ["<p>" ++ esc (String.join buf) ++ "</p>"]
  | .embed :: rest, buf => qcOps rest buf
  | .str s :: rest, buf =>
    let pb := qcParts (pySplitLines s) buf
    pb.1 ++ qcOps rest pb.2

/-- `delta_to_html(delta)` from `src/services/word/quill_convert.py` on a
string input: `decoded` is the `json.loads` outcome (`none` = decode error →
the `"<p>" + strip_markup(delta) + "</p>"` fallback of lines 48–57). -/
def delta_to_html (decoded : Option (List QCIns)) (raw : String) : String :=
  match decoded with
  | none => "<p>" ++ strip_markup raw ++ "</p>"
  | some ops => String.join (qcOps ops [])

/-- A string `json.loads` rejects (stray `<` inside the array), of the shape
`to_semantic_html` routes to `delta_to_html` (starts with a brace and
mentions `"ops"`). -/
def sC8 : String := "\x7b\"ops\": [<b>broken]\x7d"

/-! ## C4 and C8 claim theorems -/

/-- Context with the claim's input at the non-allow-listed path `data.title`. -/
def ctxC4 : PyTree String :=
  .node [("data", .node [("title", .leaf "<b>Hello</b><br>World")])]

/-- C4 counterexample: sanitizing `<b>Hello</b><br>World` at a path outside the
allow-list yields `"HelloWorld"` — `BeautifulSoup(...).get_text()` simply drops
`<br>` and closing tags, inserting no newline — so the claimed result
`"Hello\nWorld"` is not produced. -/
theorem c4_sanitize_counterexample :
    ¬ (leafAt (sanitize_except_exceptions ctxC4 []) ["data", "title"] =
        some "Hello\nWorld") := by
  have hmem1 : ¬ (pyLower (String.intercalate "." ["data"]) ∈ EXCEPTION_HTML_FIELDS) := by
    decide
  have hmem2 : ¬ (pyLower (String.intercalate "." ["data", "title"])
      ∈ EXCEPTION_HTML_FIELDS) := by decide
  have hstrip : strip_markup "<b>Hello</b><br>World" = "HelloWorld" := by decide
  have hsan : sanitize_except_exceptions ctxC4 [] =
      PyTree.node [("data", PyTree.node [("title", PyTree.leaf "HelloWorld")])] := by
    simp only [ctxC4, sanitize_except_exceptions, sanitizeEntries, List.nil_append,
      List.singleton_append, if_neg hmem1, if_neg hmem2, hstrip]
  rw [hsan]
  decide

/-- C4 (amended): for a leaf at a dotted path whose lowercase form is not in
`EXCEPTION_HTML_FIELDS`, sanitization replaces the string with
`strip_markup` of it — all tags are removed and their text contents
concatenated, with no newline inserted for `<br>` or block-closing tags, so
`<b>Hello</b><br>World` becomes exactly `HelloWorld`; an entry whose dotted
path is in the allow-list is kept byte-for-byte. -/
theorem c4_sanitize_amended :
    strip_markup "<b>Hello</b><br>World" = "HelloWorld" ∧
    (∀ (pp : List String) (es : List (String × PyTree String)) (k : String) (v : PyTree String),
      getKey? es k = some v →
      pyLower (String.intercalate "." (pp ++ [k])) ∈ EXCEPTION_HTML_FIELDS →
      getKey? (sanitizeEntries es pp) k = some v) ∧
    (∀ (pp : List String) (es : List (String × PyTree String)) (k : String) (s : String),
      getKey? es k = some (.leaf s) →
      pyLower (String.intercalate "." (pp ++ [k])) ∉ EXCEPTION_HTML_FIELDS →
      getKey? (sanitizeEntries es pp) k = some (.leaf (strip_markup s))) := by
  refine ⟨by decide, ?_, ?_⟩
  · intro pp es
    induction es with
    | nil => intro k v h _; cases h
    | cons e rest ih =>
      obtain ⟨k', v'⟩ := e
      intro k v hget hmem
      simp only [getKey?] at hget
      by_cases hk : k' = k
      · rw [if_pos hk] at hget
        cases hget
        subst hk
        simp [sanitizeEntries, getKey?, hmem]
      · rw [if_neg hk] at hget
        simp only [sanitizeEntries, getKey?, if_neg hk]
        exact ih k v hget hmem
  · intro pp es
    induction es with
    | nil => intro k s h _; cases h
    | cons e rest ih =>
      obtain ⟨k', v'⟩ := e
      intro k s hget hmem
      simp only [getKey?] at hget
      by_cases hk : k' = k
      · rw [if_pos hk] at hget
        cases hget
        subst hk
        simp [sanitizeEntries, getKey?, hmem, sanitize_except_exceptions]
      · rw [if_neg hk] at hget
        simp only [sanitizeEntries, getKey?, if_neg hk]
        exact ih k s hget hmem

/-- Witness for C4 (amended): the allow-listed path `data.riskdescription.1`
keeps its markup byte-for-byte; the plain path `data.x` is stripped. -/
theorem c4_sanitize_amended_witness :
    (getKey? [("1", PyTree.leaf "<i>rich</i>")] "1" = some (PyTree.leaf "<i>rich</i>") ∧
      pyLower (String.intercalate "." (["data", "riskdescription"] ++ ["1"]))
        ∈ EXCEPTION_HTML_FIELDS ∧
      getKey? [("x", PyTree.leaf "<b>Hi</b>")] "x" = some (PyTree.leaf "<b>Hi</b>") ∧
      pyLower (String.intercalate "." (["data"] ++ ["x"])) ∉ EXCEPTION_HTML_FIELDS) ∧
    getKey? (sanitizeEntries [("1", PyTree.leaf "<i>rich</i>")] ["data", "riskdescription"]) "1" =
      some (PyTree.leaf "<i>rich</i>") ∧
    getKey? (sanitizeEntries [("x", PyTree.leaf "<b>Hi</b>")] ["data"]) "x" =
      some (PyTree.leaf (strip_markup "<b>Hi</b>")) :=
  ⟨⟨rfl, by decide, rfl, by decide⟩,
    c4_sanitize_amended.2.1 ["data", "riskdescription"] [("1", PyTree.leaf "<i>rich</i>")]
      "1" (PyTree.leaf "<i>rich</i>") rfl (by decide),
    c4_sanitize_amended.2.2 ["data"] [("x", PyTree.leaf "<b>Hi</b>")] "x" "<b>Hi</b>"
      rfl (by decide)⟩

/-- C8 counterexample: on the undecodable input `sC8`, the fallback of
`delta_to_html` returns the input with markup *stripped*
(`strip_markup`), not the input *escaped* (`_esc`) as the claim states —
the `<b>` inside is deleted rather than turned into `&lt;b&gt;`. -/
theorem c8_fallback_counterexample :
    delta_to_html none sC8 ≠ "<p>" ++ esc sC8 ++ "</p>" := by decide

/-- C8 (amended): for every string input whose JSON decode fails,
`delta_to_html` never raises and degrades to a single `<p>` paragraph whose
content is the input with markup stripped (`strip_markup`), not escaped;
when the input contains no `<` and no `&` this coincides with the raw input. -/
theorem c8_fallback_amended (s : String) :
    delta_to_html none s = "<p>" ++ strip_markup s ++ "</p>" ∧
      ('<' ∉ s.data → '&' ∉ s.data → delta_to_html none s = "<p>" ++ s ++ "</p>") := by
  refine ⟨rfl, ?_⟩
  intro h1 h2
  show "<p>" ++ strip_markup s ++ "</p>" = "<p>" ++ s ++ "</p>"
  rw [strip_markup_id s h1 h2]

/-- Witness for C8 (amended) at a markup-free undecodable input. -/
theorem c8_fallback_amended_witness :
    ('<' ∉ ("not json" : String).data ∧ '&' ∉ ("not json" : String).data) ∧
      delta_to_html none "not json" = "<p>" ++ strip_markup "not json" ++ "</p>" ∧
      delta_to_html none "not json" = "<p>" ++ "not json" ++ "</p>" :=
  ⟨⟨by decide, by decide⟩, (c8_fallback_amended "not json").1,
    (c8_fallback_amended "not json").2 (by decide) (by decide)⟩

/-! ## Image marker resolver (`src/services/word/images.py`)

`replace_image_markers_xml(docx_path, context)` unzips the package, walks
every `w:p` of `document.xml`, and for the first
`IMAGE_MARKER_RE = r"\[\[\s*[Ii]mage:?\s*([^\]]+)\s*\]\]"` match in a
paragraph's text resolves the key in the context, copies the image into
`word/media/`, appends a relationship, and replaces the paragraph's content
with a single inline drawing sized in EMUs.  The package is modelled
abstractly: `document.xml` as a paragraph list (a paragraph is its text, or
the single drawing the function writes), the rels part as a relationship
list, `word/media/` as a file-name list.  The file system is an oracle
`String → Option ImgInfo` (`none` = `os.path.isfile` false; `some` = the
pixel size and DPI metadata `PIL.Image.open` reads).  The `rId<n>`
relationship Ids are modelled by their numeral `n`, and the `uuid4().hex`
media names by a per-call name generator argument.  Float arithmetic is
modelled over `ℚ`; `int(round(...))` is modelled with `round` (Python rounds
half-to-even, which differs only at exact half-integer EMU values and does
not affect the stated inequalities). -/

/-- Python `\s` on the ASCII range (`' '`, `\t`, `\n`, `\r`, `\v`, `\f`). -/
def isPySpace (c : Char) : Bool :=
  c = ' ' || c = '\t' || c = '\n' || c = '\r' || c = '\x0b' || c = '\x0c'

/-- Model of Python `str.strip()` (ASCII whitespace). -/
def pyStrip (s : String) : String :=
  String.mk (((s.data.dropWhile isPySpace).reverse.dropWhile isPySpace).reverse)

/-- Model of Python `str.startswith(pre)`. -/
def pyStartsWith (s pre : String) : Bool :=
  pre.data.isPrefixOf s.data

/-- Attempt the marker regex `\[\[\s*[Ii]mage:?\s*([^\]]+)\s*\]\]` anchored at
this position; returns the raw captured group.  Since `[^\]]+` cannot cross a
`]`, the regex matches here iff after `[[`, optional whitespace, `I`/`i`,
`mage`, an optional colon, there is at least one non-`]` character before the
first `]` and that `]` is immediately followed by another `]`; the greedy
group is everything up to the first `]` (internal backtracking over the
trailing `\s*` only moves whitespace that `strip()` removes anyway). -/
def markerAt : List Char → Option (List Char)
  | '[' :: '[' :: rest =>
    match rest.dropWhile isPySpace with
    | c :: 'm' :: 'a' :: 'g' :: 'e' :: r2 =>
      if c = 'I' || c = 'i' then
        let r3 := match r2 with
          | ':' :: t => t
          | _ => r2
        let content := r3.takeWhile (fun d => d != ']')
        match r3.dropWhile (fun d => d != ']') with
        | ']' :: ']' :: _ => if content.isEmpty then none else some content
        | _ => none
      else none
    | _ => none
  | _ => none

/-- `IMAGE_MARKER_RE.search`: first position where the marker pattern
matches. -/
def findMarkerChars : List Char → Option (List Char)
  | [] => none
  | c :: rest =>
    match markerAt (c :: rest) with
    | some g => some g
    | none => findMarkerChars rest

/-- `IMAGE_MARKER_RE.search(text)` followed by `m.group(1).strip()`. -/
def findMarker (s : String) : Option String :=
  (findMarkerChars s.data).map (fun g => pyStrip (String.mk g))

/-- `get_nested(ctx, dotted)` inner walk: descend dict keys; only a string
leaf at the end counts. -/
def getNestedGo : PyTree String → List String → Option String
  | .leaf s, [] => some s
  | .node _, [] => none
  | .node es, p :: ps =>
    match getKey? es p with
    | some w => getNestedGo w ps
    | none => none
  | .leaf _, _ :: _ => none

/-- `get_nested(ctx, dotted)` from `_get_from_context`. -/
def get_nested (ctx : PyTree String) (dotted : String) : Option String :=
  getNestedGo ctx (pySplitDots dotted)

/-- `context.get("data", {})`. -/
def ctxData (ctx : PyTree String) : PyTree String :=
  match ctx with
  | .node es =>
    match getKey? es "data" with
    | some v => v
    | none => .node []
  | .leaf _ => .node []

/-- Python truthiness of an optional string (`None` and `""` are falsy). -/
def truthyS : Option String → Bool
  | none => false
  | some s => !(s == "")

/-- Python `a or b` on optional strings. -/
def pyOrS (a b : Option String) : Option String :=
  if truthyS a then a else b

/-- `_get_from_context(context, key)` from `src/services/word/images.py`:
exact key in the context and in its `data` root, then with a `data.` prefix,
then the lower-cased variants; each candidate is accepted only if truthy. -/
def _get_from_context (ctx : PyTree String) (key : String) : Option String :=
  let v1 := pyOrS (get_nested ctx key) (get_nested (ctxData ctx) key)
  if truthyS v1 then v1
  else
    let v2 := if !(pyStartsWith key "data.") then get_nested ctx ("data." ++ key) else none
    if truthyS v2 then v2
    else
      let low := pyLower key
      let v3 := pyOrS (get_nested ctx low) (get_nested (ctxData ctx) low)
      if truthyS v3 then v3
      else
        let v4 := if !(pyStartsWith key "data.") then get_nested ctx ("data." ++ low) else none
        if truthyS v4 then v4 else none

/-- What `PIL.Image.open` yields for an existing image file: pixel size and
optional DPI metadata. -/
structure ImgInfo where
  wPx : Nat
  hPx : Nat
  dpi : Option ℚ
  deriving DecidableEq

/-- `(img.info.get("dpi") or (96, 96))[0] or 96`: missing or zero DPI falls
back to 96. -/
def effDpi (img : ImgInfo) : ℚ :=
  match img.dpi with
  | none => 96
  | some d => if d = 0 then 96 else d

/-- `_scaled_mm(image_path, max_w_mm, max_h_mm)`: millimetre size scaled to
fit the bounds, preserving aspect;
`scale = min(1.0, max_w_mm / w_mm if w_mm else 1.0, max_h_mm / h_mm if h_mm
else 1.0)`. -/
def _scaled_mm (img : ImgInfo) (maxW maxH : ℚ) : ℚ × ℚ :=
  let wmm : ℚ := (img.wPx : ℚ) / effDpi img * (254 / 10)
  let hmm : ℚ := (img.hPx : ℚ) / effDpi img * (254 / 10)
  let scale := min 1 (min (if wmm = 0 then 1 else maxW / wmm)
    (if hmm = 0 then 1 else maxH / hmm))
  (wmm * scale, hmm * scale)

/-- `_emu_from_mm(mm) = int(round(mm / 25.4 * 914400))`. -/
def _emu_from_mm (mm : ℚ) : ℤ :=
  round (mm / (254 / 10) * 914400)

/-- `IMAGE_SIZE_LIMITS` from `src/services/word/constants.py` (mm bounds per
short content key; `95.25 = 381/4` etc. as exact rationals). -/
def IMAGE_SIZE_LIMITS (k : String) : Option (ℚ × ℚ) :=
  if k = "customercontact.logo" then some (127, 4572 / 100)
  else if k = "titleImage" then some (381 / 4, 5715 / 100)
  else if k = "systemLayout.elevation" then some (15875 / 100, 1524 / 10)
  else if k = "systemLayout.end" then some (15875 / 100, 1524 / 10)
  else if k = "systemLayout.iso" then some (15875 / 100, 1524 / 10)
  else if k = "systemLayout.top" then some (15875 / 100, 1524 / 10)
  else if k = "systemLayout.title" then some (381 / 4, 5715 / 100)
  else none

/-- `image_key.replace("data.", "")` (all occurrences, left to right). -/
def stripDataChars : List Char → List Char
  | 'd' :: 'a' :: 't' :: 'a' :: '.' :: rest => stripDataChars rest
  | c :: rest => c :: stripDataChars rest
  | [] => []

def stripDataKey (s : String) : String :=
  String.mk (stripDataChars s.data)

/-- `os.path.splitext(p)[1].lower()` for ordinary image paths: the suffix
from the last dot of the last path component, lower-cased, `""` if none. -/
def extOf (p : String) : String :=
  let cs := p.data.reverse
  let pre := cs.takeWhile (fun c => !(c = '.' || c = '/' || c = '\\'))
  match cs.drop pre.length with
  | '.' :: _ => String.mk (('.' :: pre.reverse).map Char.toLower)
  | _ => ""

/-- `ext = os.path.splitext(image_path)[1].lower() or ".png"`. -/
def mediaExt (p : String) : String :=
  let e := extOf p
  if e = "" then ".png" else e

/-- A paragraph of `document.xml`: its concatenated `w:t` text, or the single
inline drawing `_replace_marker_para_with_image` writes (relationship id and
extent in EMUs). -/
inductive Para where
  | text (s : String)
  | drawing (rid : Nat) (cx cy : ℤ)
  deriving DecidableEq

/-- `_para_text`: a drawing paragraph has no `w:t` runs. -/
def paraText : Para → String
  | .text s => s
  | .drawing _ _ _ => ""

/-- A `<Relationship>` of `word/_rels/document.xml.rels` (`rId<n>` modelled by
`n`). -/
structure Rel where
  id : Nat
  target : String

/-- The OOXML package parts the resolver touches. -/
structure Pkg where
  doc : List Para
  rels : List Rel
  media : List String

/-- `_next_rel_id`: the smallest `i ≥ 1` such that `rId<i>` is unused.  A
fresh id always exists among `1..n+1` by pigeonhole; the fallback branch is
unreachable. -/
def nextRelId (ids : List Nat) : Nat :=
  match (List.range (ids.length + 1)).find? (fun i => (i + 1) ∉ ids) with
  | some i => i + 1
  | none => ids.length + 2

/-- State threaded through the paragraph loop of
`replace_image_markers_xml`: the rels part and media folder contents, the
number of images inserted so far (feeding the name generator), and the
`changed` flag. -/
structure ImgState where
  rels : List Rel
  media : List String
  count : Nat
  changed : Bool

/-- Line 240: `image_key = orig_key if orig_key.startswith("data.") else
f"data.{orig_key}"`. -/
def imageKeyOf (origKey : String) : String :=
  if pyStartsWith origKey "data." then origKey else "data." ++ origKey

/-- Lines 232–244 of `replace_image_markers_xml`: find the first marker in
the paragraph text, normalise the key (`data.` prefix), resolve it in the
context, and require an existing file
(`if not image_path or not os.path.isfile(image_path): continue`). -/
def resolveMarker (ctx : PyTree String) (fs : String → Option ImgInfo) (s : String) :
    Option (String × String × ImgInfo) :=
  match findMarker s with
  | none => none
  | some origKey =>
    let imageKey := imageKeyOf origKey
    match _get_from_context ctx imageKey with
    | none => none
    | some path =>
      if path = "" then none
      else
        match fs path with
        | none => none
        | some img => some (imageKey, path, img)

/-- Lines 246–268: media copy, relationship append, size computation and
paragraph replacement for one resolved marker; skipped paragraphs pass
through untouched. -/
def stepPara (ctx : PyTree String) (fs : String → Option ImgInfo) (gen : Nat → String)
    (st : ImgState) (p : Para) : ImgState × Para :=
  match resolveMarker ctx fs (paraText p) with
  | none => (st, p)
  | some (imageKey, path, img) =>
    let targetName := gen st.count ++ mediaExt path
    let rid := nextRelId (st.rels.map Rel.id)
    let size :=
      match IMAGE_SIZE_LIMITS (stripDataKey imageKey) with
      | some (mw, mh) => _scaled_mm img mw mh
      | none => _scaled_mm img 99999 99999
    ({ rels := st.rels ++ [⟨rid, "media/" ++ targetName⟩],
       media := st.media ++ [targetName],
       count := st.count + 1,
       changed := true },
      .drawing rid (_emu_from_mm size.1) (_emu_from_mm size.2))

/-- The `for p in list(_iter_paragraphs(doc_root))` loop. -/
def runDoc (ctx : PyTree String) (fs : String → Option ImgInfo) (gen : Nat → String)
    (st : ImgState) : List Para → ImgState × List Para
  | [] => (st, [])
  | p :: rest =>
    let sp := stepPara ctx fs gen st p
    let sr := runDoc ctx fs gen sp.1 rest
    (sr.1, sp.2 :: sr.2)

/-- `replace_image_markers_xml(docx_path, context)`: run the paragraph loop;
if anything changed, rewrite `document.xml`, re-zip and replace the package
at the original path, else leave the file untouched (`if changed:` guards the
rewrite, the re-zip and the copy-back).  Returns the on-disk package and the
`changed` flag. -/
def replace_image_markers_xml (ctx : PyTree String) (fs : String → Option ImgInfo)
    (gen : Nat → String) (pkg : Pkg) : Pkg × Bool :=
  let r := runDoc ctx fs gen ⟨pkg.rels, pkg.media, 0, false⟩ pkg.doc
  if r.1.changed then
    ({ doc := r.2, rels := r.1.rels, media := r.1.media }, true)
  else (pkg, false)

/-- Relationship ids referenced by drawings of the document part. -/
def drawingRids (doc : List Para) : List Nat :=
  doc.filterMap (fun p =>
    match p with
    | .drawing rid _ _ => some rid
    | _ => none)

/-- Number of drawing elements in the document part. -/
def countDrawings (doc : List Para) : Nat :=
  (drawingRids doc).length

/-- The OOXML package invariant of §3 of the spec: every relationship id
referenced by a drawing has a `<Relationship>` entry whose `media/<name>`
target exists in `word/media/`. -/
def relsMediaInv (pkg : Pkg) : Prop :=
  ∀ rid ∈ drawingRids pkg.doc,
    ∃ r ∈ pkg.rels, r.id = rid ∧ ∃ name ∈ pkg.media, r.target = "media/" ++ name

instance (pkg : Pkg) : Decidable (relsMediaInv pkg) := by
  unfold relsMediaInv
  infer_instance

/-! ### Lemmas about the resolver loop -/

theorem nextRelId_not_mem (ids : List Nat) : nextRelId ids ∉ ids := by
  unfold nextRelId
  cases hf : (List.range (ids.length + 1)).find? (fun i => (i + 1) ∉ ids) with
  | some i =>
    have hp := List.find?_some hf
    simpa using hp
  | none =>
    exfalso
    have hsub : (List.range (ids.length + 1)).map (· + 1) ⊆ ids := by
      intro x hx
      rw [List.mem_map] at hx
      obtain ⟨i, hi, rfl⟩ := hx
      have hni := List.find?_eq_none.mp hf i hi
      simpa using hni
    have hnodup : ((List.range (ids.length + 1)).map (· + 1)).Nodup :=
      List.Nodup.map (fun a b hab => by omega) (List.nodup_range (ids.length + 1))
    have hlen := (List.subperm_of_subset hnodup hsub).length_le
    simp at hlen

theorem stepPara_mono (ctx : PyTree String) (fs : String → Option ImgInfo)
    (gen : Nat → String) (st : ImgState) (p : Para) :
    (∀ r ∈ st.rels, r ∈ (stepPara ctx fs gen st p).1.rels) ∧
    (∀ m ∈ st.media, m ∈ (stepPara ctx fs gen st p).1.media) := by
  cases h : resolveMarker ctx fs (paraText p) with
  | none => simp [stepPara, h]
  | some t =>
    obtain ⟨ik, path, img⟩ := t
    refine ⟨fun r hr => ?_, fun m hm => ?_⟩ <;>
      simp only [stepPara, h] <;> exact List.mem_append_left _ ‹_›

theorem runDoc_mono (ctx : PyTree String) (fs : String → Option ImgInfo)
    (gen : Nat → String) :
    ∀ (doc : List Para) (st : ImgState),
      (∀ r ∈ st.rels, r ∈ (runDoc ctx fs gen st doc).1.rels) ∧
      (∀ m ∈ st.media, m ∈ (runDoc ctx fs gen st doc).1.media) := by
  intro doc
  induction doc with
  | nil => intro st; simp [runDoc]
  | cons p rest ih =>
    intro st
    refine ⟨fun r hr => ?_, fun m hm => ?_⟩
    · have h1 := (stepPara_mono ctx fs gen st p).1 r hr
      have h2 := (ih (stepPara ctx fs gen st p).1).1 r h1
      simpa [runDoc] using h2
    · have h1 := (stepPara_mono ctx fs gen st p).2 m hm
      have h2 := (ih (stepPara ctx fs gen st p).1).2 m h1
      simpa [runDoc] using h2

theorem drawingRids_nil : drawingRids [] = [] := rfl

theorem drawingRids_cons_text (s : String) (qs : List Para) :
    drawingRids (Para.text s :: qs) = drawingRids qs := by
  simp [drawingRids, List.filterMap_cons]

theorem drawingRids_cons_drawing (rid : Nat) (cx cy : ℤ) (qs : List Para) :
    drawingRids (Para.drawing rid cx cy :: qs) = rid :: drawingRids qs := by
  simp [drawingRids, List.filterMap_cons]

theorem drawingRids_append (a b : List Para) :
    drawingRids (a ++ b) = drawingRids a ++ drawingRids b := by
  simp [drawingRids, List.filterMap_append]

/-- The per-state form of the invariant. -/
def stInv (doc : List Para) (st : ImgState) : Prop :=
  ∀ rid ∈ drawingRids doc,
    ∃ r ∈ st.rels, r.id = rid ∧ ∃ name ∈ st.media, r.target = "media/" ++ name

theorem stepPara_inv (ctx : PyTree String) (fs : String → Option ImgInfo)
    (gen : Nat → String) (st : ImgState) (p : Para)
    (h : stInv [p] st) :
    stInv [(stepPara ctx fs gen st p).2] (stepPara ctx fs gen st p).1 := by
  cases hres : resolveMarker ctx fs (paraText p) with
  | none =>
    simp only [stepPara, hres]
    intro rid hrid
    obtain ⟨r, hr, hid, n, hn, ht⟩ := h rid hrid
    exact ⟨r, hr, hid, n, hn, ht⟩
  | some t =>
    obtain ⟨ik, path, img⟩ := t
    simp only [stepPara, hres]
    intro rid hrid
    rw [drawingRids_cons_drawing] at hrid
    simp only [drawingRids, List.filterMap_nil, List.mem_cons, List.not_mem_nil, or_false]
      at hrid
    subst hrid
    refine ⟨⟨nextRelId (st.rels.map Rel.id), "media/" ++ (gen st.count ++ mediaExt path)⟩,
      ?_, rfl, gen st.count ++ mediaExt path, ?_, rfl⟩
    · exact List.mem_append_right _ (List.mem_singleton.mpr rfl)
    · exact List.mem_append_right _ (List.mem_singleton.mpr rfl)

theorem runDoc_inv (ctx : PyTree String) (fs : String → Option ImgInfo)
    (gen : Nat → String) :
    ∀ (doc : List Para) (st : ImgState), stInv doc st →
      stInv (runDoc ctx fs gen st doc).2 (runDoc ctx fs gen st doc).1 := by
  intro doc
  induction doc with
  | nil => intro st _ rid hrid; simp [runDoc, drawingRids] at hrid
  | cons p rest ih =>
    intro st h rid hrid
    have hp : stInv [p] st := by
      intro r hr
      apply h
      cases p with
      | text s => simp [drawingRids] at hr
      | drawing rid0 cx cy =>
        rw [drawingRids_cons_drawing] at hr ⊢
        simp only [drawingRids, List.filterMap_nil, List.mem_cons, List.not_mem_nil, or_false]
          at hr
        simp [hr]
    have hrest : stInv rest (stepPara ctx fs gen st p).1 := by
      intro r hr
      have hr' : r ∈ drawingRids (p :: rest) := by
        cases p with
        | text s => rwa [drawingRids_cons_text]
        | drawing rid0 cx cy => rw [drawingRids_cons_drawing]; exact List.mem_cons_of_mem _ hr
      obtain ⟨rel, hrel, hid, n, hn, ht⟩ := h r hr'
      exact ⟨rel, (stepPara_mono ctx fs gen st p).1 rel hrel, hid, n,
        (stepPara_mono ctx fs gen st p).2 n hn, ht⟩
    have hstep := stepPara_inv ctx fs gen st p hp
    simp only [runDoc] at hrid ⊢
    cases hrid_src : (stepPara ctx fs gen st p).2 with
    | text s =>
      rw [hrid_src, drawingRids_cons_text] at hrid
      exact ih (stepPara ctx fs gen st p).1 hrest rid hrid
    | drawing rid0 cx cy =>
      rw [hrid_src, drawingRids_cons_drawing] at hrid
      rcases List.mem_cons.mp hrid with rfl | hmem
      · have h0 : rid ∈ drawingRids [(stepPara ctx fs gen st p).2] := by
          rw [hrid_src, drawingRids_cons_drawing]
          simp
        obtain ⟨rel, hrel, hid, n, hn, ht⟩ := hstep rid h0
        exact ⟨rel, (runDoc_mono ctx fs gen rest (stepPara ctx fs gen st p).1).1 rel hrel,
          hid, n, (runDoc_mono ctx fs gen rest (stepPara ctx fs gen st p).1).2 n hn, ht⟩
      · exact ih (stepPara ctx fs gen st p).1 hrest rid hmem

theorem stepPara_skip (ctx : PyTree String) (fs : String → Option ImgInfo)
    (gen : Nat → String) (st : ImgState) (p : Para)
    (h : resolveMarker ctx fs (paraText p) = none) :
    stepPara ctx fs gen st p = (st, p) := by
  simp [stepPara, h]

theorem runDoc_skip (ctx : PyTree String) (fs : String → Option ImgInfo)
    (gen : Nat → String) :
    ∀ (doc : List Para) (st : ImgState),
      (∀ p ∈ doc, resolveMarker ctx fs (paraText p) = none) →
      runDoc ctx fs gen st doc = (st, doc) := by
  intro doc
  induction doc with
  | nil => intro st _; rfl
  | cons p rest ih =>
    intro st h
    rw [runDoc, stepPara_skip ctx fs gen st p (h p (List.mem_cons_self p rest)),
      ih st (fun q hq => h q (List.mem_cons_of_mem p hq))]

theorem runDoc_append (ctx : PyTree String) (fs : String → Option ImgInfo)
    (gen : Nat → String) :
    ∀ (l₁ l₂ : List Para) (st : ImgState),
      runDoc ctx fs gen st (l₁ ++ l₂) =
        ((runDoc ctx fs gen (runDoc ctx fs gen st l₁).1 l₂).1,
          (runDoc ctx fs gen st l₁).2 ++ (runDoc ctx fs gen (runDoc ctx fs gen st l₁).1 l₂).2) := by
  intro l₁
  induction l₁ with
  | nil => intro l₂ st; simp [runDoc]
  | cons p rest ih =>
    intro l₂ st
    simp only [List.cons_append, runDoc, List.append_eq, ih]

/-! ### Lemmas about the scaling arithmetic -/

theorem scaled_mm_le (img : ImgInfo) (maxW maxH : ℚ) (hW : 0 < maxW) (hH : 0 < maxH)
    (hdpi : 0 < effDpi img) :
    (_scaled_mm img maxW maxH).1 ≤ maxW ∧ (_scaled_mm img maxW maxH).2 ≤ maxH := by
  unfold _scaled_mm
  simp only
  set wmm : ℚ := (img.wPx : ℚ) / effDpi img * (254 / 10) with hwmm
  set hmm : ℚ := (img.hPx : ℚ) / effDpi img * (254 / 10) with hhmm
  have hw0 : 0 ≤ wmm := by
    rw [hwmm]
    apply mul_nonneg (div_nonneg (Nat.cast_nonneg _) hdpi.le) (by norm_num)
  have hh0 : 0 ≤ hmm := by
    rw [hhmm]
    apply mul_nonneg (div_nonneg (Nat.cast_nonneg _) hdpi.le) (by norm_num)
  constructor
  · by_cases hz : wmm = 0
    · rw [hz, zero_mul]; exact hW.le
    · have hwpos : 0 < wmm := lt_of_le_of_ne hw0 (Ne.symm hz)
      have hs : min 1 (min (if wmm = 0 then 1 else maxW / wmm)
          (if hmm = 0 then 1 else maxH / hmm)) ≤ maxW / wmm := by
        rw [if_neg hz]
        exact le_trans (min_le_right _ _) (min_le_left _ _)
      calc wmm * min 1 (min (if wmm = 0 then 1 else maxW / wmm)
            (if hmm = 0 then 1 else maxH / hmm)) ≤ wmm * (maxW / wmm) :=
              mul_le_mul_of_nonneg_left hs hw0
        _ = maxW := by field_simp
  · by_cases hz : hmm = 0
    · rw [hz, zero_mul]; exact hH.le
    · have hhpos : 0 < hmm := lt_of_le_of_ne hh0 (Ne.symm hz)
      have hs : min 1 (min (if wmm = 0 then 1 else maxW / wmm)
          (if hmm = 0 then 1 else maxH / hmm)) ≤ maxH / hmm := by
        rw [if_neg hz]
        exact le_trans (min_le_right _ _) (min_le_right _ _)
      calc hmm * min 1 (min (if wmm = 0 then 1 else maxW / wmm)
            (if hmm = 0 then 1 else maxH / hmm)) ≤ hmm * (maxH / hmm) :=
              mul_le_mul_of_nonneg_left hs hh0
        _ = maxH := by field_simp

theorem scaled_mm_aspect (img : ImgInfo) (maxW maxH : ℚ) :
    (_scaled_mm img maxW maxH).1 * (img.hPx : ℚ) =
      (_scaled_mm img maxW maxH).2 * (img.wPx : ℚ) := by
  simp only [_scaled_mm]
  ring

theorem emu_mono {a b : ℚ} (h : a ≤ b) : _emu_from_mm a ≤ _emu_from_mm b := by
  unfold _emu_from_mm
  rw [round_eq, round_eq]
  apply Int.floor_mono
  have hstep : a / (254 / 10) * 914400 ≤ b / (254 / 10) * 914400 := by
    have h1 : a / (254 / 10) ≤ b / (254 / 10) := by
      apply (div_le_div_iff_of_pos_right (by norm_num)).mpr h
    exact mul_le_mul_of_nonneg_right h1 (by norm_num)
  linarith

/-! ### C2, C3, C10 claim theorems -/

/-- C2: after any run of `replace_image_markers_xml`, every image
relationship id referenced by a drawing in `document.xml` has a
`<Relationship>` entry in `word/_rels/document.xml.rels` whose `media/<name>`
target exists in `word/media/`, provided the invariant held before the run:
old drawings keep their entries (the rels part and media folder only grow),
and each inserted drawing references the freshly appended relationship whose
target is the freshly copied media file. -/
theorem c2_rels_media_invariant (ctx : PyTree String) (fs : String → Option ImgInfo)
    (gen : Nat → String) (pkg : Pkg) (h : relsMediaInv pkg) :
    relsMediaInv (replace_image_markers_xml ctx fs gen pkg).1 := by
  cases hc : (runDoc ctx fs gen ⟨pkg.rels, pkg.media, 0, false⟩ pkg.doc).1.changed with
  | false =>
    simp only [replace_image_markers_xml, hc, Bool.false_eq_true, if_false]
    exact h
  | true =>
    simp only [replace_image_markers_xml, hc, if_true]
    intro rid hrid
    exact runDoc_inv ctx fs gen pkg.doc ⟨pkg.rels, pkg.media, 0, false⟩ h rid hrid

/-- Witness for C2 at a package with one pre-existing drawing, one resolvable
marker and one unresolvable marker. -/
theorem c2_rels_media_invariant_witness :
    relsMediaInv
      ⟨[Para.drawing 1 5 5, Para.text "[[ Image: titleImage ]]", Para.text "[[ Image: gone ]]"],
        [⟨1, "media/old.png"⟩], ["old.png"]⟩ ∧
    relsMediaInv
      (replace_image_markers_xml
        (PyTree.node [("data", PyTree.node [("titleImage", PyTree.leaf "img.png")])])
        (fun s => if s = "img.png" then some ⟨100, 50, none⟩ else none)
        (fun _ => "pic")
        ⟨[Para.drawing 1 5 5, Para.text "[[ Image: titleImage ]]", Para.text "[[ Image: gone ]]"],
          [⟨1, "media/old.png"⟩], ["old.png"]⟩).1 :=
  ⟨by decide,
    c2_rels_media_invariant
      (PyTree.node [("data", PyTree.node [("titleImage", PyTree.leaf "img.png")])])
      (fun s => if s = "img.png" then some ⟨100, 50, none⟩ else none)
      (fun _ => "pic") _ (by decide)⟩

/-- C3: a marker whose key does not resolve to an existing file is skipped:
the resolver (a total function — the Python `continue`s before touching the
package) leaves the paragraph text and the state unchanged, adds no
relationship, and the remaining paragraphs are processed exactly as if the
failing marker paragraph were transparent. -/
theorem c3_missing_image_skipped (ctx : PyTree String) (fs : String → Option ImgInfo)
    (gen : Nat → String) (st : ImgState) (pre post : List Para) (s key : String)
    (hm : findMarker s = some key)
    (hfail : ∀ path, _get_from_context ctx (imageKeyOf key) = some path →
      path = "" ∨ fs path = none) :
    stepPara ctx fs gen st (Para.text s) = (st, Para.text s) ∧
    runDoc ctx fs gen st (pre ++ [Para.text s] ++ post) =
      ((runDoc ctx fs gen (runDoc ctx fs gen st pre).1 post).1,
        (runDoc ctx fs gen st pre).2 ++ [Para.text s] ++
          (runDoc ctx fs gen (runDoc ctx fs gen st pre).1 post).2) := by
  have hres : resolveMarker ctx fs (paraText (Para.text s)) = none := by
    simp only [resolveMarker, paraText, hm]
    cases hg : _get_from_context ctx (imageKeyOf key) with
    | none => rfl
    | some path =>
      rcases hfail path hg with rfl | hfs
      · simp
      · by_cases hpe : path = ""
        · simp [hpe]
        · simp [hpe, hfs]
  have hone : ∀ st2 : ImgState, runDoc ctx fs gen st2 [Para.text s] = (st2, [Para.text s]) :=
    fun st2 => runDoc_skip ctx fs gen [Para.text s] st2 (fun q hq => by
      rw [List.mem_singleton] at hq
      rw [hq]
      exact hres)
  refine ⟨stepPara_skip ctx fs gen st (Para.text s) hres, ?_⟩
  rw [runDoc_append ctx fs gen (pre ++ [Para.text s]) post,
    runDoc_append ctx fs gen pre [Para.text s], hone]

/-- Witness for C3: the marker `[[ Image: gone ]]` has no context entry;
a resolvable marker after it is still processed. -/
theorem c3_missing_image_skipped_witness :
    findMarker "[[ Image: gone ]]" = some "gone" ∧
    (∀ path, _get_from_context
        (PyTree.node [("data", PyTree.node [("titleImage", PyTree.leaf "img.png")])])
        (imageKeyOf "gone") = some path →
      path = "" ∨ (fun s => if s = "img.png" then some (⟨100, 50, none⟩ : ImgInfo) else none)
        path = none) ∧
    stepPara (PyTree.node [("data", PyTree.node [("titleImage", PyTree.leaf "img.png")])])
        (fun s => if s = "img.png" then some ⟨100, 50, none⟩ else none) (fun _ => "pic")
        ⟨[], [], 0, false⟩ (Para.text "[[ Image: gone ]]") =
      (⟨[], [], 0, false⟩, Para.text "[[ Image: gone ]]") := by
  have hg : _get_from_context
      (PyTree.node [("data", PyTree.node [("titleImage", PyTree.leaf "img.png")])])
      (imageKeyOf "gone") = none := by decide
  refine ⟨by decide, fun path hp => Option.noConfusion (hg.symm.trans hp), ?_⟩
  exact (c3_missing_image_skipped
    (PyTree.node [("data", PyTree.node [("titleImage", PyTree.leaf "img.png")])])
    (fun s => if s = "img.png" then some ⟨100, 50, none⟩ else none) (fun _ => "pic")
    ⟨[], [], 0, false⟩ [] [] "[[ Image: gone ]]" "gone" (by decide)
    (fun path hp => Option.noConfusion (hg.symm.trans hp))).1

/-- C10: when no paragraph's marker resolves to an existing image file
(including a document with no markers at all), the `changed` flag stays
false, so `document.xml` is never rewritten and the archive is neither
re-zipped nor copied back: the package file is byte-for-byte unchanged. -/
theorem c10_unchanged_when_nothing_resolves (ctx : PyTree String)
    (fs : String → Option ImgInfo) (gen : Nat → String) (pkg : Pkg)
    (h : ∀ p ∈ pkg.doc, resolveMarker ctx fs (paraText p) = none) :
    replace_image_markers_xml ctx fs gen pkg = (pkg, false) := by
  have hrun := runDoc_skip ctx fs gen pkg.doc ⟨pkg.rels, pkg.media, 0, false⟩ h
  simp [replace_image_markers_xml, hrun]

/-- Witness for C10: a package with a plain paragraph, a marker with no
context entry, and a marker whose file does not exist. -/
theorem c10_unchanged_when_nothing_resolves_witness :
    (∀ p ∈ (⟨[Para.text "hello", Para.text "[[ Image: gone ]]",
          Para.text "[[ Image: titleImage ]]"], [⟨1, "media/old.png"⟩], ["old.png"]⟩ : Pkg).doc,
      resolveMarker (PyTree.node [("data", PyTree.node [("titleImage", PyTree.leaf "miss.png")])])
        (fun _ => none) (paraText p) = none) ∧
    replace_image_markers_xml
        (PyTree.node [("data", PyTree.node [("titleImage", PyTree.leaf "miss.png")])])
        (fun _ => none) (fun _ => "pic")
        ⟨[Para.text "hello", Para.text "[[ Image: gone ]]", Para.text "[[ Image: titleImage ]]"],
          [⟨1, "media/old.png"⟩], ["old.png"]⟩ =
      (⟨[Para.text "hello", Para.text "[[ Image: gone ]]", Para.text "[[ Image: titleImage ]]"],
          [⟨1, "media/old.png"⟩], ["old.png"]⟩, false) :=
  ⟨by decide,
    c10_unchanged_when_nothing_resolves
      (PyTree.node [("data", PyTree.node [("titleImage", PyTree.leaf "miss.png")])])
      (fun _ => none) (fun _ => "pic") _ (by decide)⟩

/-! ### C1 claim theorems -/

/-- Context, file system and package for the C1 counterexample. -/
def ctxC1 : PyTree String :=
  .node [("data", .node [("titleImage", .leaf "img.png")])]

def fsC1 : String → Option ImgInfo :=
  fun s => if s = "img.png" then some ⟨100, 50, none⟩ else none

/-- A rendered package containing exactly one marker paragraph — and one
pre-existing drawing (as real templates have: logos, layout art). -/
def pkgC1 : Pkg :=
  ⟨[Para.drawing 1 5 5, Para.text "[[ Image: titleImage ]]"],
    [⟨1, "media/old.png"⟩], ["old.png"]⟩

/-- C1 counterexample: `pkgC1` satisfies the claim's hypotheses
(`data.titleImage` resolves to an existing image file; `document.xml`
contains exactly one marker paragraph), yet after `replace_image_markers_xml`
the document contains two drawing elements, not "exactly one": the function
only adds a drawing for the marker and does not remove pre-existing ones. -/
theorem c1_exactly_one_drawing_counterexample :
    _get_from_context ctxC1 "data.titleImage" = some "img.png" ∧
    (fsC1 "img.png").isSome = true ∧
    (pkgC1.doc.filter (fun p => (findMarker (paraText p)).isSome)).length = 1 ∧
    countDrawings ((replace_image_markers_xml ctxC1 fsC1 (fun _ => "pic") pkgC1).1.doc) ≠ 1 := by
  refine ⟨by decide, by decide, by decide, by decide⟩

/-- C1 (amended): for a package whose `document.xml` contains exactly one
marker paragraph `[[ Image: titleImage ]]` (no other paragraph resolves) and
a context whose `data.titleImage` is the path of an existing image file,
`replace_image_markers_xml` replaces that paragraph with exactly one new
drawing element (one more drawing than before), appends exactly one new
relationship whose target is the newly copied file under `word/media/`, and
the drawing's extent is the `titleImage` policy size `(95.25, 57.15)` mm
applied by `_scaled_mm`: within the bounds, aspect ratio preserved exactly at
the millimetre level, EMU values within the rounded bounds. -/
theorem c1_title_image_amended (ctx : PyTree String) (fs : String → Option ImgInfo)
    (gen : Nat → String) (pre post : List Para) (rels : List Rel) (media : List String)
    (s path : String) (img : ImgInfo)
    (hm : findMarker s = some "titleImage")
    (hothers : ∀ p ∈ pre ++ post, resolveMarker ctx fs (paraText p) = none)
    (hctx : _get_from_context ctx "data.titleImage" = some path)
    (hpath : path ≠ "")
    (hfs : fs path = some img)
    (hdpi : 0 < effDpi img) :
    (replace_image_markers_xml ctx fs gen ⟨pre ++ [Para.text s] ++ post, rels, media⟩).2
        = true ∧
    (replace_image_markers_xml ctx fs gen ⟨pre ++ [Para.text s] ++ post, rels, media⟩).1.doc =
      pre ++ [Para.drawing (nextRelId (rels.map Rel.id))
        (_emu_from_mm (_scaled_mm img (381 / 4) (5715 / 100)).1)
        (_emu_from_mm (_scaled_mm img (381 / 4) (5715 / 100)).2)] ++ post ∧
    countDrawings
        (replace_image_markers_xml ctx fs gen ⟨pre ++ [Para.text s] ++ post, rels, media⟩).1.doc =
      countDrawings (pre ++ [Para.text s] ++ post) + 1 ∧
    (replace_image_markers_xml ctx fs gen ⟨pre ++ [Para.text s] ++ post, rels, media⟩).1.rels =
      rels ++ [⟨nextRelId (rels.map Rel.id), "media/" ++ (gen 0 ++ mediaExt path)⟩] ∧
    nextRelId (rels.map Rel.id) ∉ rels.map Rel.id ∧
    (gen 0 ++ mediaExt path) ∈
      (replace_image_markers_xml ctx fs gen ⟨pre ++ [Para.text s] ++ post, rels, media⟩).1.media ∧
    (_scaled_mm img (381 / 4) (5715 / 100)).1 ≤ 381 / 4 ∧
    (_scaled_mm img (381 / 4) (5715 / 100)).2 ≤ 5715 / 100 ∧
    (_scaled_mm img (381 / 4) (5715 / 100)).1 * (img.hPx : ℚ) =
      (_scaled_mm img (381 / 4) (5715 / 100)).2 * (img.wPx : ℚ) ∧
    _emu_from_mm (_scaled_mm img (381 / 4) (5715 / 100)).1 ≤ _emu_from_mm (381 / 4) ∧
    _emu_from_mm (_scaled_mm img (381 / 4) (5715 / 100)).2 ≤ _emu_from_mm (5715 / 100) := by
  have hres : resolveMarker ctx fs s = some ("data.titleImage", path, img) := by
    simp only [resolveMarker, hm]
    rw [show imageKeyOf "titleImage" = "data.titleImage" from by decide]
    rw [hctx]
    simp only [if_neg hpath, hfs]
  have hstep : ∀ st : ImgState, st.changed = false → st.count = 0 →
      stepPara ctx fs gen st (Para.text s) =
        ({ rels := st.rels ++ [⟨nextRelId (st.rels.map Rel.id),
              "media/" ++ (gen 0 ++ mediaExt path)⟩],
           media := st.media ++ [gen 0 ++ mediaExt path],
           count := 1, changed := true },
          Para.drawing (nextRelId (st.rels.map Rel.id))
            (_emu_from_mm (_scaled_mm img (381 / 4) (5715 / 100)).1)
            (_emu_from_mm (_scaled_mm img (381 / 4) (5715 / 100)).2)) := by
    intro st hch hcount
    simp only [stepPara, paraText, hres, hcount]
    rw [show stripDataKey "data.titleImage" = "titleImage" from by decide]
    rw [show IMAGE_SIZE_LIMITS "titleImage" = some (381 / 4, 5715 / 100) from by
      simp [IMAGE_SIZE_LIMITS]]
  have hpre : ∀ p ∈ pre, resolveMarker ctx fs (paraText p) = none :=
    fun p hp => hothers p (List.mem_append_left _ hp)
  have hpost : ∀ p ∈ post, resolveMarker ctx fs (paraText p) = none :=
    fun p hp => hothers p (List.mem_append_right _ hp)
  have hrun : runDoc ctx fs gen ⟨rels, media, 0, false⟩ (pre ++ [Para.text s] ++ post) =
      ({ rels := rels ++ [⟨nextRelId (rels.map Rel.id), "media/" ++ (gen 0 ++ mediaExt path)⟩],
         media := media ++ [gen 0 ++ mediaExt path], count := 1, changed := true },
        pre ++ [Para.drawing (nextRelId (rels.map Rel.id))
          (_emu_from_mm (_scaled_mm img (381 / 4) (5715 / 100)).1)
          (_emu_from_mm (_scaled_mm img (381 / 4) (5715 / 100)).2)] ++ post) := by
    rw [runDoc_append ctx fs gen (pre ++ [Para.text s]) post,
      runDoc_append ctx fs gen pre [Para.text s],
      runDoc_skip ctx fs gen pre ⟨rels, media, 0, false⟩ hpre]
    have hone : runDoc ctx fs gen ⟨rels, media, 0, false⟩ [Para.text s] =
        ({ rels := rels ++ [⟨nextRelId (rels.map Rel.id),
              "media/" ++ (gen 0 ++ mediaExt path)⟩],
           media := media ++ [gen 0 ++ mediaExt path], count := 1, changed := true },
          [Para.drawing (nextRelId (rels.map Rel.id))
            (_emu_from_mm (_scaled_mm img (381 / 4) (5715 / 100)).1)
            (_emu_from_mm (_scaled_mm img (381 / 4) (5715 / 100)).2)]) := by
      simp only [runDoc, hstep ⟨rels, media, 0, false⟩ rfl rfl]
    rw [hone, runDoc_skip ctx fs gen post _ hpost]
  have hout : replace_image_markers_xml ctx fs gen ⟨pre ++ [Para.text s] ++ post, rels, media⟩ =
      (⟨pre ++ [Para.drawing (nextRelId (rels.map Rel.id))
          (_emu_from_mm (_scaled_mm img (381 / 4) (5715 / 100)).1)
          (_emu_from_mm (_scaled_mm img (381 / 4) (5715 / 100)).2)] ++ post,
        rels ++ [⟨nextRelId (rels.map Rel.id), "media/" ++ (gen 0 ++ mediaExt path)⟩],
        media ++ [gen 0 ++ mediaExt path]⟩, true) := by
    simp only [replace_image_markers_xml, hrun]
    simp
  have hb := scaled_mm_le img (381 / 4) (5715 / 100) (by norm_num) (by norm_num) hdpi
  refine ⟨by rw [hout], by rw [hout], ?_, by rw [hout], nextRelId_not_mem _, ?_, hb.1, hb.2,
    scaled_mm_aspect img _ _, emu_mono hb.1, emu_mono hb.2⟩
  · rw [hout]
    simp only [countDrawings, drawingRids_append, drawingRids_cons_drawing,
      drawingRids_cons_text, drawingRids_nil, List.length_append, List.length_cons,
      List.length_nil]
    omega
  · rw [hout]
    simp

/-- Witness for C1 (amended) at a concrete 100×50 px, 96 dpi image. -/
theorem c1_title_image_amended_witness :
    findMarker "[[ Image: titleImage ]]" = some "titleImage" ∧
    _get_from_context ctxC1 "data.titleImage" = some "img.png" ∧
    fsC1 "img.png" = some ⟨100, 50, none⟩ ∧
    (replace_image_markers_xml ctxC1 fsC1 (fun _ => "pic")
        ⟨[Para.text "[[ Image: titleImage ]]"], [], []⟩).2 = true ∧
    (replace_image_markers_xml ctxC1 fsC1 (fun _ => "pic")
        ⟨[Para.text "[[ Image: titleImage ]]"], [], []⟩).1.doc =
      [] ++ [Para.drawing (nextRelId (([] : List Rel).map Rel.id))
        (_emu_from_mm (_scaled_mm ⟨100, 50, none⟩ (381 / 4) (5715 / 100)).1)
        (_emu_from_mm (_scaled_mm ⟨100, 50, none⟩ (381 / 4) (5715 / 100)).2)] ++ [] ∧
    (_scaled_mm (⟨100, 50, none⟩ : ImgInfo) (381 / 4) (5715 / 100)).1 ≤ 381 / 4 ∧
    (_scaled_mm (⟨100, 50, none⟩ : ImgInfo) (381 / 4) (5715 / 100)).1 * ((50 : ℕ) : ℚ) =
      (_scaled_mm (⟨100, 50, none⟩ : ImgInfo) (381 / 4) (5715 / 100)).2 * ((100 : ℕ) : ℚ) := by
  have happ := c1_title_image_amended ctxC1 fsC1 (fun _ => "pic") [] [] [] []
    "[[ Image: titleImage ]]" "img.png" ⟨100, 50, none⟩ (by decide)
    (fun p hp => by simp at hp) (by decide) (by decide) rfl (by norm_num [effDpi])
  exact ⟨by decide, by decide, rfl, happ.1, happ.2.1, happ.2.2.2.2.2.2.1,
    happ.2.2.2.2.2.2.2.2.1⟩

/-! ## List style synchronisation (`src/services/word/html_shim.py`)

`_sync_style_name_with_level` maps an inserted list paragraph's numbering
level `ilvl` to a style name: `style_index = max(1, min(9, effective_level +
1))` where `effective_level = ilvl` in both branches of the
`if anchor_level is not None:` statement (the anchor, i.e. the placeholder's
base level, never contributes), and `if style_index < 2:` the name is
`"List Number 1"` for a number paragraph but the unnumbered `"List Bullet"`
for a bullet one.  No warning is logged when clamping occurs (only a
`logger.debug` per synced paragraph). -/

/-- `_paragraph_kind`'s two outcomes ("number" iff the style name mentions
`Number`, else bullet). -/
inductive ParaKind where
  | bullet
  | number
  deriving DecidableEq

/-- `effective_level` of `_sync_style_name_with_level`: `ilvl`, whether or
not an anchor level is present (`if anchor_level is not None:
effective_level = ilvl`). -/
def effective_level (ilvl : ℤ) (anchorLevel : Option ℤ) : ℤ :=
  match anchorLevel with
  | some _ => ilvl
  | none => ilvl

/-- `style_index = max(1, min(9, effective_level + 1))`. -/
def style_index (ilvl : ℤ) (anchorLevel : Option ℤ) : ℤ :=
  max 1 (min 9 (effective_level ilvl anchorLevel + 1))

/-- The style name `_sync_style_name_with_level` assigns. -/
def synced_style_name (kind : ParaKind) (ilvl : ℤ) (anchorLevel : Option ℤ) : String :=
  let idx := style_index ilvl anchorLevel
  if idx < 2 then
    match kind with
    | .number => "List Number 1"
    | .bullet => "List Bullet"
  else
    match kind with
    | .number => "List Number " ++ toString idx
    | .bullet => "List Bullet " ++ toString idx

/-- The style names `_ensure_list_styles` pre-creates: `"List Bullet"`,
`"List Bullet 2"`..`"List Bullet 9"` and likewise for `"List Number"`
(`if i < 2: name = base else name = f"{base} {i}"`). -/
def _ensure_list_styles : List String :=
  (["List Bullet", "List Number"].map (fun base =>
    (List.range 9).map (fun i =>
      if i + 1 < 2 then base else base ++ " " ++ toString (i + 1)))).flatten

/-- The claim's style naming, following the spec's words: index =
`clamp(base_level + indent, 1, 9)`, mapped to `"List Bullet <n>"` /
`"List Number <n>"` where index 1 renders as the unnumbered base name. -/
def claimed_style_name (kind : ParaKind) (base indent : ℤ) : String :=
  let idx := max 1 (min 9 (base + indent))
  let baseName :=
    match kind with
    | .bullet => "List Bullet"
    | .number => "List Number"
  if idx = 1 then baseName else baseName ++ " " ++ toString idx

/-- C5 counterexample: at base level 3 (anchor paragraph at `ilvl` 2) and
indent 0, the claim demands `"List Bullet 3"`, but the code assigns
`"List Bullet"` — `base_level` is never added to the indent.  And for an
ordered block at base 1, indent 0, the claim demands the unnumbered
`"List Number"`, but the code assigns `"List Number 1"`. -/
theorem c5_style_counterexample :
    synced_style_name .bullet 0 (some 2) ≠ claimed_style_name .bullet 3 0 ∧
    synced_style_name .number 0 (some 0) ≠ claimed_style_name .number 1 0 := by
  refine ⟨by decide, by decide⟩

/-- C5 (amended): the assigned style index is `clamp(ilvl + 1, 1, 9)` where
`ilvl` is the block's own nesting level — the anchor (base) level never
affects the result; a bullet block's name agrees with the claimed
`clamp`-naming taken at base `ilvl + 1`, indent 0 (so index 1 renders as the
unnumbered `"List Bullet"`), and is always among the styles
`_ensure_list_styles` pre-creates; an ordered block at index 1 is instead
named `"List Number 1"`, which is not among the pre-created styles.  (No
warning is emitted when clamping occurs — the loop only logs at debug
level.) -/
theorem c5_style_sync_amended :
    (∀ (kind : ParaKind) (ilvl : ℤ) (anchor : Option ℤ),
      synced_style_name kind ilvl anchor = synced_style_name kind ilvl none) ∧
    (∀ (ilvl : ℤ) (anchor : Option ℤ),
      1 ≤ style_index ilvl anchor ∧ style_index ilvl anchor ≤ 9) ∧
    (∀ (ilvl : ℤ) (anchor : Option ℤ),
      synced_style_name .bullet ilvl anchor = claimed_style_name .bullet (ilvl + 1) 0) ∧
    (∀ (ilvl : ℤ) (anchor : Option ℤ),
      synced_style_name .bullet ilvl anchor ∈ _ensure_list_styles) ∧
    (∀ (ilvl : ℤ) (anchor : Option ℤ), style_index ilvl anchor = 1 →
      synced_style_name .number ilvl anchor = "List Number 1") ∧
    "List Number 1" ∉ _ensure_list_styles := by
  have hbounds : ∀ (ilvl : ℤ) (anchor : Option ℤ),
      1 ≤ style_index ilvl anchor ∧ style_index ilvl anchor ≤ 9 := by
    intro ilvl anchor
    unfold style_index effective_level
    cases anchor <;> constructor <;>
      simp [le_max_iff, max_le_iff, min_le_iff, le_min_iff]
  refine ⟨?_, hbounds, ?_, ?_, ?_, by decide⟩
  · intro kind ilvl anchor
    unfold synced_style_name style_index effective_level
    cases anchor <;> rfl
  · intro ilvl anchor
    have hb := hbounds ilvl anchor
    unfold synced_style_name claimed_style_name
    have heq : max 1 (min 9 (ilvl + 1 + 0)) = style_index ilvl anchor := by
      unfold style_index effective_level
      cases anchor <;> simp
    rw [heq]
    by_cases h : style_index ilvl anchor < 2
    · have h1 : style_index ilvl anchor = 1 := by omega
      simp [h, h1]
    · have h1 : ¬ style_index ilvl anchor = 1 := by omega
      simp [h, h1]
  · intro ilvl anchor
    have hb := hbounds ilvl anchor
    unfold synced_style_name
    by_cases h : style_index ilvl anchor < 2
    · simp only [if_pos h]
      decide
    · simp only [if_neg h]
      set idx := style_index ilvl anchor with hidx
      have h2 : 2 ≤ idx := by omega
      have h9 : idx ≤ 9 := hb.2
      interval_cases idx <;> decide
  · intro ilvl anchor h
    unfold synced_style_name
    rw [h]
    rfl

/-- Witness for C5 (amended): at `ilvl = 0` under an anchor at level 2, the
ordered style is `"List Number 1"`; at `ilvl = 3` the bullet style is among
the pre-created styles. -/
theorem c5_style_sync_amended_witness :
    style_index 0 (some 2) = 1 ∧
    synced_style_name .number 0 (some 2) = "List Number 1" ∧
    synced_style_name .bullet 3 (some 2) ∈ _ensure_list_styles :=
  ⟨by decide, c5_style_sync_amended.2.2.2.2.1 0 (some 2) (by decide),
    c5_style_sync_amended.2.2.2.1 3 (some 2)⟩

/-! ## Canonical-block Delta normalizer (C6)

Modelled from the spec: the canonical rich-text block normalizer —
`parse_quill_delta` of the `quill_delta` module exercised by
`src/services/word/test_quill_delta.py` — is not present under `src/`
(only its tests are; the `delta_to_html` functions in `src/` emit HTML, not
block sequences).  Per spec §4.1 and §3: walk each op, split inserted text on
newline boundaries into discrete lines, each line carrying the attributes of
the op that terminated it; a line whose `list` attribute is
`ordered`/`bullet` becomes a list-item block of that kind with the line's
`indent` attribute (defaulting to 0, clamped to a minimum of 0); other lines
become paragraph blocks `{type, indent, text}`. -/

/-- The attributes of a Delta op that the canonical normalizer reads. -/
structure DeltaAttrs where
  list : Option String
  indent : Option ℤ
  deriving DecidableEq

/-- One Delta op: an inserted string with attributes. -/
structure DeltaOp where
  insert : String
  attributes : DeltaAttrs
  deriving DecidableEq

inductive BlockType where
  | paragraph
  | bullet
  | ordered
  deriving DecidableEq

/-- Canonical rich-text block `{type: paragraph|bullet|ordered, indent ≥ 0,
text}` (spec §3). -/
structure Block where
  type : BlockType
  indent : Nat
  text : String
  deriving DecidableEq

/-- A finished line becomes a block: list kind from the `list` attribute,
indent from the `indent` attribute clamped to a minimum of 0. -/
def lineToBlock (text : String) (attrs : DeltaAttrs) : Block :=
  match attrs.list with
  | some "bullet" => ⟨.bullet, (max 0 (attrs.indent.getD 0)).toNat, text⟩
  | some "ordered" => ⟨.ordered, (max 0 (attrs.indent.getD 0)).toNat, text⟩
  | _ => ⟨.paragraph, 0, text⟩

/-- Emit one op's newline-separated parts: every part before a newline ends a
line carrying this op's attributes; the last part stays buffered. -/
def emitParts (first : String) (attrs : DeltaAttrs) :
    List String → List (String × DeltaAttrs) × String
  | [] => ([], first)
  | q :: qs =>
    let r := emitParts q attrs qs
    ((first, attrs) :: r.1, r.2)

/-- Walk the ops, buffering the text of the currently open line. -/
def deltaLinesGo (buf : String) (cur : DeltaAttrs) :
    List DeltaOp → List (String × DeltaAttrs)
  | [] => if buf = "" then [] else [(buf, cur)]
  | op :: rest =>
    match pySplitLines op.insert with
    | [] => deltaLinesGo buf cur rest
    | p :: ps =>
      let e := emitParts (buf ++ p) op.attributes ps
      e.1 ++ deltaLinesGo e.2 op.attributes rest

/-- Modelled from the spec: `parse_quill_delta(ops)` — the canonical block
sequence of a Delta (spec §4.1/§3; asserted by `test_quill_delta.py` against
the missing `quill_delta` module). -/
def parse_quill_delta (ops : List DeltaOp) : List Block :=
  (deltaLinesGo "" ⟨none, none⟩ ops).map (fun l => lineToBlock l.1 l.2)

/-- C6: the Delta
`{"ops":[{"insert":"A\n","attributes":{"list":"bullet"}},
{"insert":"A.1\n","attributes":{"list":"bullet","indent":1}}]}` normalizes to
the canonical block sequence `[{bullet, 0, "A"}, {bullet, 1, "A.1"}]`. -/
theorem c6_delta_bullet_blocks :
    parse_quill_delta
      [⟨"A\n", ⟨some "bullet", none⟩⟩, ⟨"A.1\n", ⟨some "bullet", some 1⟩⟩] =
      [⟨.bullet, 0, "A"⟩, ⟨.bullet, 1, "A.1"⟩] := by
  decide

/-! ## Quill-HTML list normalizer (`src/services/word/quill_convert.py`)

`_normalize_quill_html_lists(html)` extracts every `<li ...>body</li>` in
document order with its `ql-indent-N` depth, then rebuilds the output by
appending tokens to an `out` list: going deeper appends one `"<ul>"` per
level, going shallower appends `"</li>"` and one `"</ul>"` per level, staying
level appends `"</li>"` (unless the last token is `"<ul>"`), each item then
appends `"<li>" + _esc(text)`; at the end one `"</li>"` and the remaining
`"</ul>"`s.  The extraction loop advances with `str.find`, so it is written
on a fuel argument initialised to `length + 1`; each iteration consumes at
least five characters, so the fuel never runs out.  `re.sub` of `_TAG_RE` is
likewise fueled. -/

/-- The suffix of `l` starting at the first occurrence of `pat`
(`str.find`). -/
def dropToSub (pat : List Char) : List Char → Option (List Char)
  | [] => if pat.isEmpty then some [] else none
  | c :: rest =>
    if pat.isPrefixOf (c :: rest) then some (c :: rest) else dropToSub pat rest

/-- Word character for the regex `\b` boundary (`[A-Za-z0-9_]`). -/
def isWordChar (c : Char) : Bool :=
  c.isAlphanum || c = '_'

def digitsToNat (l : List Char) : Nat :=
  l.foldl (fun acc c => acc * 10 + (c.toNat - '0'.toNat)) 0

/-- `\bql-indent-(\d+)\b` anchored at this position (the preceding-boundary
check is done by the caller). -/
def qlIndentAt : List Char → Option Nat
  | 'q' :: 'l' :: '-' :: 'i' :: 'n' :: 'd' :: 'e' :: 'n' :: 't' :: '-' :: rest =>
    let digits := rest.takeWhile Char.isDigit
    if digits.isEmpty then none
    else
      match rest.drop digits.length with
      | [] => some (digitsToNat digits)
      | c :: _ => if isWordChar c then none else some (digitsToNat digits)
  | _ => none

/-- `_INDENT_RE.search`: first boundary-respecting occurrence. -/
def qlIndentSearch (prev : Option Char) : List Char → Option Nat
  | [] => none
  | c :: rest =>
    let boundaryOk :=
      match prev with
      | none => true
      | some p => !isWordChar p
    match (if boundaryOk then qlIndentAt (c :: rest) else none) with
    | some n => some n
    | none => qlIndentSearch (some c) rest

/-- `_TAG_RE = <(/?)([a-zA-Z0-9]+)(\s[^>]*)?>` matched at a position right
after the `<`: returns the remainder after the whole tag, or `none`. -/
def tagRest (rest : List Char) : Option (List Char) :=
  let rest1 :=
    match rest with
    | '/' :: t => t
    | _ => rest
  let name := rest1.takeWhile (fun c => c.isAlphanum)
  if name.isEmpty then none
  else
    match rest1.drop name.length with
    | '>' :: t => some t
    | c :: t2 =>
      if isPySpace c then
        let attrs := t2.takeWhile (fun d => d != '>')
        match t2.drop attrs.length with
        | '>' :: t3 => some t3
        | _ => none
      else none
    | [] => none

/-- `re.sub(_TAG_RE, "", s)`: left-to-right, non-overlapping removal of tag
matches; a `<` that starts no match is literal text. -/
def stripTagsFuel : Nat → List Char → List Char
  | 0, l => l
  | fuel + 1, l =>
    match l with
    | [] => []
    | '<' :: rest =>
      match tagRest rest with
      | some rem => stripTagsFuel fuel rem
      | none => '<' :: stripTagsFuel fuel rest
    | c :: rest => c :: stripTagsFuel fuel rest

/-- `_strip_tags(s)` from `src/services/word/quill_convert.py`:
`re.sub(_TAG_RE, "", s).strip()`. -/
def _strip_tags (s : String) : String :=
  pyStrip (String.mk (stripTagsFuel (s.data.length + 1) s.data))

/-- The `while True` extraction loop of `_normalize_quill_html_lists`:
`<li` / `>` / `</li>` positions via `find`, head = the `<li ...>` tag, body =
the inner text with `\xa0` replaced by a space and stripped, depth = the
first `ql-indent-N` of the head (default 0). -/
def extractItemsFuel : Nat → List Char → List (Nat × String)
  | 0, _ => []
  | fuel + 1, l =>
    match dropToSub ['<', 'l', 'i'] l with
    | none => []
    | some l1 =>
      match dropToSub ['>'] l1 with
      | none => []
      | some l2 =>
        let head := l1.take (l1.length - l2.length + 1)
        let afterTag := l2.drop 1
        match dropToSub ['<', '/', 'l', 'i', '>'] afterTag with
        | none => []
        | some l3 =>
          let bodyRaw := afterTag.take (afterTag.length - l3.length)
          let body := pyStrip (String.mk (bodyRaw.map (fun c => if c = '\xa0' then ' ' else c)))
          let depth :=
            match qlIndentSearch none head with
            | some n => n
            | none => 0
          (depth, _strip_tags body) :: extractItemsFuel fuel (l3.drop 5)

/-- The emission state of `_normalize_quill_html_lists`: the `out` token
list, `current_depth` (starts at −1) and `open_lists`. -/
structure EmitSt where
  out : List String
  cur : ℤ
  opens : ℤ

/-- One iteration of the `for depth, text in items` loop.  Going deeper, both
branches of the Python `if current_depth >= 0` append `"<ul>"` and increment
`open_lists`, so the loop appends one `"<ul>"` per level. -/
def emitItem (st : EmitSt) (item : Nat × String) : EmitSt :=
  let depth : ℤ := item.1
  if st.cur < depth then
    let n := (depth - st.cur).toNat
    { out := st.out ++ List.replicate n "<ul>" ++ ["<li>" ++ esc item.2],
      cur := depth, opens := st.opens + n }
  else if depth < st.cur then
    let n := (st.cur - depth).toNat
    { out := st.out ++ ["</li>"] ++ List.replicate n "</ul>" ++ ["<li>" ++ esc item.2],
      cur := depth, opens := st.opens - n }
  else
    let closeLi : List String :=
      if st.out ≠ [] ∧ st.out.getLast? ≠ some "<ul>" then ["</li>"] else []
    { out := st.out ++ closeLi ++ ["<li>" ++ esc item.2], cur := st.cur, opens := st.opens }

/-- The token list `_normalize_quill_html_lists` joins: the emission loop
plus the final `close_li()` and the `while open_lists > 0: close_list()`. -/
def normalizeTokens (items : List (Nat × String)) : List String :=
  if items.isEmpty then []
  else
    let st := items.foldl emitItem ⟨[], -1, 0⟩
    st.out ++ ["</li>"] ++ List.replicate st.opens.toNat "</ul>"

/-- `_normalize_quill_html_lists(html)`: unchanged when no items, else the
joined token list. -/
def _normalize_quill_html_lists (html : String) : String :=
  let items := extractItemsFuel (html.data.length + 1) html.data
  if items.isEmpty then html
  else String.join (normalizeTokens items)

/-- Token counts used to state the claim's open/close balance. -/
def ulOpens (ts : List String) : Nat :=
  (ts.filter (fun t => t = "<ul>")).length

def ulCloses (ts : List String) : Nat :=
  (ts.filter (fun t => t = "</ul>")).length

def liOpens (ts : List String) : Nat :=
  (ts.filter (fun t => pyStartsWith t "<li>")).length

def liCloses (ts : List String) : Nat :=
  (ts.filter (fun t => t = "</li>")).length

inductive TagKind where
  | ul
  | li
  deriving DecidableEq

def tokenOf (t : String) : Option (Bool × TagKind) :=
  if t = "<ul>" then some (true, .ul)
  else if t = "</ul>" then some (false, .ul)
  else if t = "</li>" then some (false, .li)
  else if pyStartsWith t "<li>" then some (true, .li)
  else none

/-- Stack check of the claim's well-formedness: every opened `<ul>` and
`<li>` closed exactly once, in properly nested order. -/
def wellFormedGo : List TagKind → List String → Bool
  | stack, [] => stack.isEmpty
  | stack, t :: ts =>
    match tokenOf t with
    | some (true, k) => wellFormedGo (k :: stack) ts
    | some (false, k) =>
      match stack with
      | k' :: s2 => if k = k' then wellFormedGo s2 ts else false
      | [] => false
    | none => wellFormedGo stack ts

def wellFormedTokens (ts : List String) : Bool :=
  wellFormedGo [] ts

/-- Maximum `<ul>` nesting depth reached along the token list. -/
def maxUlDepthGo : ℤ → ℤ → List String → ℤ
  | _, best, [] => best
  | cur, best, t :: ts =>
    if t = "<ul>" then maxUlDepthGo (cur + 1) (max best (cur + 1)) ts
    else if t = "</ul>" then maxUlDepthGo (cur - 1) best ts
    else maxUlDepthGo cur best ts

def maxUlDepth (ts : List String) : ℤ :=
  maxUlDepthGo 0 0 ts

/-- The claim's three-sibling input. -/
def htmlC7 : String :=
  "<ul><li class=\"ql-indent-0\">A</li><li class=\"ql-indent-1\">B</li><li class=\"ql-indent-2\">C</li></ul>"

def tokensC7 : List String :=
  normalizeTokens (extractItemsFuel (htmlC7.data.length + 1) htmlC7.data)

/-- C7 counterexample: on the three-sibling `ql-indent-0/1/2` input the
normalizer's output token stream is not well formed in the claim's sense —
three `<li>` are opened but only one `</li>` is ever emitted (an `<li>` that
receives a nested sublist is never explicitly closed), so "every opened <li>
is closed exactly once, in properly nested order" is false. -/
theorem c7_wellformed_counterexample :
    wellFormedTokens tokensC7 = false ∧
    liOpens tokensC7 = 3 ∧ liCloses tokensC7 = 1 := by
  refine ⟨by decide, by decide, by decide⟩

/-! ### `<ul>` balance of the emission loop -/

theorem ulOpens_append (a b : List String) : ulOpens (a ++ b) = ulOpens a + ulOpens b := by
  simp [ulOpens, List.filter_append]

theorem ulCloses_append (a b : List String) : ulCloses (a ++ b) = ulCloses a + ulCloses b := by
  simp [ulCloses, List.filter_append]

theorem ulOpens_replicate_open (n : Nat) : ulOpens (List.replicate n "<ul>") = n := by
  simp [ulOpens, List.filter_replicate]

theorem ulCloses_replicate_open (n : Nat) : ulCloses (List.replicate n "<ul>") = 0 := by
  simp [ulCloses, List.filter_replicate]

theorem ulOpens_replicate_close (n : Nat) : ulOpens (List.replicate n "</ul>") = 0 := by
  simp [ulOpens, List.filter_replicate]

theorem ulCloses_replicate_close (n : Nat) : ulCloses (List.replicate n "</ul>") = n := by
  simp [ulCloses, List.filter_replicate]

theorem liTok_ne (s : String) :
    ("<li>" ++ s) ≠ "<ul>" ∧ ("<li>" ++ s) ≠ "</ul>" ∧ ("<li>" ++ s) ≠ "</li>" := by
  refine ⟨?_, ?_, ?_⟩ <;> intro h <;> have hd := congrArg String.data h <;>
    simp [String.data_append] at hd

theorem ulOpens_li_tok (s : String) : ulOpens ["<li>" ++ s] = 0 := by
  have h := (liTok_ne s).1
  simp [ulOpens, h]

theorem ulCloses_li_tok (s : String) : ulCloses ["<li>" ++ s] = 0 := by
  have h := (liTok_ne s).2.1
  simp [ulCloses, h]

theorem ulOpens_closeLi : ulOpens ["</li>"] = 0 := by decide

theorem ulCloses_closeLi : ulCloses ["</li>"] = 0 := by decide

theorem ulOpens_nil : ulOpens [] = 0 := rfl

theorem ulCloses_nil : ulCloses [] = 0 := rfl

theorem emitItem_inv (st : EmitSt) (item : Nat × String)
    (h1 : st.opens = st.cur + 1) (h2 : -1 ≤ st.cur)
    (h3 : st.opens = (ulOpens st.out : ℤ) - ulCloses st.out) :
    (emitItem st item).opens = (emitItem st item).cur + 1 ∧
    -1 ≤ (emitItem st item).cur ∧
    (emitItem st item).opens =
      (ulOpens (emitItem st item).out : ℤ) - ulCloses (emitItem st item).out := by
  have hdep : (0 : ℤ) ≤ (item.1 : ℤ) := Int.natCast_nonneg _
  by_cases hd : st.cur < (item.1 : ℤ)
  · simp only [emitItem, if_pos hd]
    refine ⟨by omega, by omega, ?_⟩
    simp only [ulOpens_append, ulCloses_append, ulOpens_replicate_open,
      ulCloses_replicate_open, ulOpens_li_tok, ulCloses_li_tok]
    omega
  · by_cases hs : (item.1 : ℤ) < st.cur
    · simp only [emitItem, if_neg hd, if_pos hs]
      refine ⟨by omega, by omega, ?_⟩
      simp only [ulOpens_append, ulCloses_append, ulOpens_replicate_close,
        ulCloses_replicate_close, ulOpens_li_tok, ulCloses_li_tok, ulOpens_closeLi,
        ulCloses_closeLi]
      omega
    · simp only [emitItem, if_neg hd, if_neg hs]
      by_cases hcl : st.out ≠ [] ∧ st.out.getLast? ≠ some "<ul>"
      · simp only [if_pos hcl]
        refine ⟨by omega, by omega, ?_⟩
        simp only [ulOpens_append, ulCloses_append, ulOpens_li_tok, ulCloses_li_tok,
          ulOpens_closeLi, ulCloses_closeLi]
        omega
      · simp only [if_neg hcl]
        refine ⟨by omega, by omega, ?_⟩
        simp only [ulOpens_append, ulCloses_append, ulOpens_li_tok, ulCloses_li_tok,
          ulOpens_nil, ulCloses_nil]
        omega

theorem foldl_emitItem_inv (items : List (Nat × String)) :
    ∀ st : EmitSt, st.opens = st.cur + 1 → -1 ≤ st.cur →
      st.opens = (ulOpens st.out : ℤ) - ulCloses st.out →
      ((items.foldl emitItem st).opens = (items.foldl emitItem st).cur + 1 ∧
        -1 ≤ (items.foldl emitItem st).cur ∧
        (items.foldl emitItem st).opens =
          (ulOpens (items.foldl emitItem st).out : ℤ) -
            ulCloses (items.foldl emitItem st).out) := by
  induction items with
  | nil => intro st h1 h2 h3; exact ⟨h1, h2, h3⟩
  | cons it rest ih =>
    intro st h1 h2 h3
    obtain ⟨g1, g2, g3⟩ := emitItem_inv st it h1 h2 h3
    exact ih (emitItem st it) g1 g2 g3

/-- C7 (amended): on the three-sibling `ql-indent-0/1/2` input, the
normalizer nests the items three `<ul>` levels deep; every opened `<ul>` is
closed exactly once and the `<ul>` opens/closes are properly nested — and
this `<ul>` balance holds for every item sequence — but `</li>` is only
emitted when returning to a same-or-shallower item and once at the end, so
`<li>` items that receive nested sublists rely on HTML's implicit closing
(they are not explicitly closed, as the counterexample shows). -/
theorem c7_nesting_amended :
    tokensC7 =
      ["<ul>", "<li>A", "<ul>", "<li>B", "<ul>", "<li>C", "</li>", "</ul>", "</ul>", "</ul>"] ∧
    maxUlDepth tokensC7 = 3 ∧
    ulOpens tokensC7 = 3 ∧ ulCloses tokensC7 = 3 ∧
    wellFormedTokens (tokensC7.filter (fun t => t = "<ul>" || t = "</ul>")) = true ∧
    _normalize_quill_html_lists htmlC7 = "<ul><li>A<ul><li>B<ul><li>C</li></ul></ul></ul>" ∧
    (∀ items : List (Nat × String),
      ulOpens (normalizeTokens items) = ulCloses (normalizeTokens items)) := by
  refine ⟨by decide, by decide, by decide, by decide, by decide, by decide, ?_⟩
  intro items
  unfold normalizeTokens
  cases items with
  | nil => rfl
  | cons it rest =>
    simp only [List.isEmpty_cons, if_neg Bool.false_ne_true]
    have hinv := foldl_emitItem_inv (it :: rest) ⟨[], -1, 0⟩ (by simp) (by simp) (by decide)
    obtain ⟨g1, g2, g3⟩ := hinv
    simp only [ulOpens_append, ulCloses_append, ulOpens_closeLi, ulCloses_closeLi,
      ulOpens_replicate_close, ulCloses_replicate_close]
    omega

end QG
